import Mathlib

/-!
# Transaction record store (asset-transfer-basic/chaincode-external/assetTransfer.go)

A shallow embedding of the chaincode in `assetTransfer.go` and theorems about it.

* The data model (`TransactionPurchase`, `Transaction`) and the contract functions
  (`InitLedger`, `CreateTransaction`, `ReadTransaction`, `ReadTransactionByLocation`,
  `UpdateTransaction`, `DeleteTransaction`, `TransactionExists`, `GetAllTransactions`)
  are translated from the Go source, statement by statement.
* `encoding/json` is not part of the source file: `json.Marshal` / `json.Unmarshal` are a
  parameter (`Codec`) of every function that calls them.
* The ledger stub (`ctx.GetStub()`) is not part of the source file either: the world state
  and its operations follow the collaborator contract of the specification (§4.1), with
  the faults of the collaborator given by a parameter (`Ledger`).
-/

namespace AssetTransfer

/-! ## Basic types -/

/-- Go `[]byte`. -/
abbrev Bytes := List Nat

/-- Go `error` values, identified with their message; `nil` is `none` of `Option error`. -/
abbrev error := String

/-- Go `float64`. The program never computes with these values (it only stores them in
records and hands them to the serializer), so a finite value is kept as sign, integer
significand and binary exponent: `(-1)^neg * significand * 2^exponent`. -/
inductive float64 where
  | finite (neg : Bool) (significand : Nat) (exponent : Int)
  | inf (neg : Bool)
  | nan
  deriving DecidableEq, Repr

/-- Integer constants of the source (`Amount: 100`) as `float64`. -/
instance (n : Nat) : OfNat float64 n := ⟨float64.finite false n 0⟩

/-- The constant `.20` of the source: the binary64 nearest to one fifth,
`0x3FC999999999999A = 7205759403792794 * 2^(-55)`. -/
def float64.point20 : float64 := float64.finite false 7205759403792794 (-55)

/-- Source lines 33-43. -/
structure TransactionPurchase where
  AmountInGrams : float64
  AmountInMiligramsOfTotalTHC : float64
  Category : String
  Cost : float64
  FedTax : float64
  Name : String
  StateTax : float64
  THCPercent : float64
  WeFee : float64
  deriving DecidableEq, Repr

/-- Source lines 48-58. -/
structure Transaction where
  Amount : float64
  Location : String
  Reciever : String
  Sender : String
  Status : String
  Timestamp : String
  TransactionID : String
  TransactionPurchase : TransactionPurchase
  TypeOfTransaction : String
  deriving DecidableEq, Repr

/-- The package `encoding/json` as the program uses it: `json.Marshal(transaction)` and
`json.Unmarshal(bytes, &transaction)`. The package is not part of the source file, so both
functions are a parameter of the embedding. -/
structure Codec where
  Marshal : Transaction → Except error Bytes
  Unmarshal : Bytes → Except error Transaction

/-- A transaction is valid for the serializer when marshalling it succeeds and
unmarshalling the bytes gives the transaction back (for `encoding/json`: finite numeric
fields and well-formed strings). -/
def Codec.RoundTrip (J : Codec) (t : Transaction) : Prop :=
  ∃ b, J.Marshal t = Except.ok b ∧ J.Unmarshal b = Except.ok t

/-- Every record the serializer marshals reads back as itself (for `encoding/json`:
`json.Marshal` fails on a NaN or an infinity, and what it writes for finite numbers and
well-formed strings `json.Unmarshal` restores). -/
def Codec.Faithful (J : Codec) : Prop :=
  ∀ t b, J.Marshal t = Except.ok b → J.Unmarshal b = Except.ok t

/-! ## The world state and the ledger stub -/

/-- Modelled from the spec: the key-lexicographic order of the World State Client's range
scan (§4.1), on the code points of two keys. -/
def ltChars : List Char → List Char → Bool
  | _, [] => false
  | [], _ :: _ => true
  | a :: as, b :: bs => if a < b then true else if a = b then ltChars as bs else false

/-- Modelled from the spec: the key-lexicographic order of the World State Client (§4.1),
which is not in the sources; for well-formed strings it is Go's `<` on strings. -/
def keyLt (a b : String) : Prop := ltChars a.data b.data = true

instance (a b : String) : Decidable (keyLt a b) :=
  inferInstanceAs (Decidable (ltChars a.data b.data = true))

/-- Modelled from the spec: the value the World State Client (§4.1) holds under a key, in a
list of entries (first match). -/
def lookupKey (k : String) : List (String × Bytes) → Option Bytes
  | [] => none
  | (k', v) :: rest => if k = k' then some v else lookupKey k rest

/-- Modelled from the spec: the upsert of the World State Client (§4.1) on a key-ordered
list of entries. -/
def insertKey (k : String) (v : Bytes) : List (String × Bytes) → List (String × Bytes)
  | [] => [(k, v)]
  | (k', v') :: rest =>
    if keyLt k k' then (k, v) :: (k', v') :: rest
    else if k = k' then (k, v) :: rest
    else (k', v') :: insertKey k v rest

/-- Modelled from the spec: the removal of the World State Client (§4.1) on a list of
entries. -/
def eraseKey (k : String) : List (String × Bytes) → List (String × Bytes)
  | [] => []
  | (k', v') :: rest => if k = k' then eraseKey k rest else (k', v') :: eraseKey k rest

/-- Keys of a list of entries. -/
def keysOf (l : List (String × Bytes)) : List String := l.map Prod.fst

theorem ltChars_irrefl (a : List Char) : ltChars a a = false := by
  induction a with
  | nil => rfl
  | cons c cs ih => simp [ltChars, ih]

theorem ltChars_cons (x y : Char) (xs ys : List Char) :
    ltChars (x :: xs) (y :: ys) = true ↔ x < y ∨ (x = y ∧ ltChars xs ys = true) := by
  simp only [ltChars]
  split_ifs with h1 h2
  · simp [h1]
  · simp [h1, h2]
  · simp [h1, h2]

theorem ltChars_trans (a b c : List Char) (hab : ltChars a b = true) (hbc : ltChars b c = true) :
    ltChars a c = true := by
  induction a generalizing b c with
  | nil =>
    cases b with
    | nil => simp [ltChars] at hab
    | cons y ys =>
      cases c with
      | nil => simp [ltChars] at hbc
      | cons z zs => simp [ltChars]
  | cons x xs ih =>
    cases b with
    | nil => simp [ltChars] at hab
    | cons y ys =>
      cases c with
      | nil => simp [ltChars] at hbc
      | cons z zs =>
        rw [ltChars_cons] at hab hbc ⊢
        rcases hab with hxy | ⟨hxy, hab⟩
        · rcases hbc with hyz | ⟨hyz, _⟩
          · exact Or.inl (lt_trans hxy hyz)
          · exact Or.inl (hyz ▸ hxy)
        · rcases hbc with hyz | ⟨hyz, hbc⟩
          · exact Or.inl (hxy ▸ hyz)
          · exact Or.inr ⟨hxy.trans hyz, ih _ _ hab hbc⟩

theorem ltChars_total (a b : List Char) (h1 : ltChars a b = false) (h2 : a ≠ b) :
    ltChars b a = true := by
  induction a generalizing b with
  | nil =>
    cases b with
    | nil => exact absurd rfl h2
    | cons y ys => simp [ltChars] at h1
  | cons x xs ih =>
    cases b with
    | nil => simp [ltChars]
    | cons y ys =>
      have h1' : ¬ (x < y ∨ (x = y ∧ ltChars xs ys = true)) := by
        rw [← ltChars_cons, h1]; simp
      rw [ltChars_cons]
      rcases lt_trichotomy x y with h | h | h
      · exact absurd (Or.inl h) h1'
      · subst h
        refine Or.inr ⟨rfl, ih ys ?_ (fun hh => h2 (by rw [hh]))⟩
        cases hl : ltChars xs ys with
        | false => rfl
        | true => exact absurd (Or.inr ⟨rfl, hl⟩) h1'
      · exact Or.inl h

theorem keyLt_irrefl (a : String) : ¬ keyLt a a := by
  simp [keyLt, ltChars_irrefl]

theorem keyLt_trans {a b c : String} (hab : keyLt a b) (hbc : keyLt b c) : keyLt a c :=
  ltChars_trans _ _ _ hab hbc

theorem keyLt_of_not_keyLt {a b : String} (h1 : ¬ keyLt a b) (h2 : a ≠ b) : keyLt b a := by
  apply ltChars_total
  · simpa [keyLt] using h1
  · intro h; exact h2 (String.ext h)

theorem keyLt_ne {a b : String} (h : keyLt a b) : a ≠ b := by
  intro hab; subst hab; exact keyLt_irrefl a h

theorem mem_keysOf_insertKey (k : String) (v : Bytes) (l : List (String × Bytes)) (x : String) :
    x ∈ keysOf (insertKey k v l) ↔ x = k ∨ x ∈ keysOf l := by
  induction l with
  | nil => simp [insertKey, keysOf]
  | cons hd tl ih =>
    obtain ⟨k', v'⟩ := hd
    unfold insertKey
    split_ifs with h1 h2
    · simp [keysOf]
    · subst h2; simp [keysOf]
    · have ih' := ih
      simp only [keysOf, List.map_cons, List.mem_cons] at ih' ⊢
      rw [ih']
      tauto

theorem sorted_insertKey (k : String) (v : Bytes) (l : List (String × Bytes))
    (h : (keysOf l).Pairwise keyLt) : (keysOf (insertKey k v l)).Pairwise keyLt := by
  induction l with
  | nil => simp [insertKey, keysOf]
  | cons hd tl ih =>
    obtain ⟨k', v'⟩ := hd
    have h' : (k' :: keysOf tl).Pairwise keyLt := h
    rw [List.pairwise_cons] at h'
    unfold insertKey
    split_ifs with h1 h2
    · show (k :: k' :: keysOf tl).Pairwise keyLt
      refine List.pairwise_cons.mpr ⟨?_, h⟩
      intro x hx
      rcases List.mem_cons.mp hx with rfl | hx
      · exact h1
      · exact keyLt_trans h1 (h'.1 x hx)
    · subst h2
      exact h
    · show (k' :: keysOf (insertKey k v tl)).Pairwise keyLt
      refine List.pairwise_cons.mpr ⟨?_, ih h'.2⟩
      intro x hx
      rcases (mem_keysOf_insertKey k v tl x).mp hx with rfl | hx
      · exact keyLt_of_not_keyLt h1 h2
      · exact h'.1 x hx

theorem sorted_eraseKey (k : String) (l : List (String × Bytes))
    (h : (keysOf l).Pairwise keyLt) : (keysOf (eraseKey k l)).Pairwise keyLt := by
  have hsub : List.Sublist (eraseKey k l) l := by
    induction l with
    | nil => simp [eraseKey]
    | cons hd tl ih =>
      obtain ⟨k', v'⟩ := hd
      unfold eraseKey
      split_ifs with h1
      · exact List.Sublist.cons _ (ih (List.Pairwise.of_cons h))
      · exact List.Sublist.cons₂ _ (ih (List.Pairwise.of_cons h))
  exact List.Pairwise.sublist (List.Sublist.map Prod.fst hsub) h

/-- Modelled from the spec: the world state behind the World State Client (§4.1), which is
not in the sources: a finite map from keys to byte values, kept as the list of its entries
in key-lexicographic order (the order in which a range scan produces them). -/
structure WorldState where
  entries : List (String × Bytes)
  sorted : (keysOf entries).Pairwise keyLt

theorem WorldState.ext_entries {a b : WorldState} (h : a.entries = b.entries) : a = b := by
  cases a; cases b; cases h; rfl

instance : DecidableEq WorldState := fun a b =>
  decidable_of_iff (a.entries = b.entries) ⟨WorldState.ext_entries, fun h => h ▸ rfl⟩

/-- The world state with no key. -/
def WorldState.empty : WorldState := ⟨[], List.Pairwise.nil⟩

/-- Value stored under a key, if any. -/
def WorldState.get (ws : WorldState) (key : String) : Option Bytes := lookupKey key ws.entries

/-- The world state after an upsert. -/
def WorldState.put (ws : WorldState) (key : String) (value : Bytes) : WorldState :=
  ⟨insertKey key value ws.entries, sorted_insertKey key value ws.entries ws.sorted⟩

/-- The world state after a removal. -/
def WorldState.del (ws : WorldState) (key : String) : WorldState :=
  ⟨eraseKey key ws.entries, sorted_eraseKey key ws.entries ws.sorted⟩

/-- Modelled from the spec: the faults of the World State Client (§4.1: every operation
"fails with LedgerAccessError on transport/storage faults"); the client is not in the
sources. Each field says whether the call with these arguments faults, and with which
error; `nextErr key` is a fault of an iterator's `Next()` on the entry with that key. -/
structure Ledger where
  getErr : String → Option error
  putErr : String → Bytes → Option error
  delErr : String → Option error
  rangeErr : String → String → Option error
  compositeErr : String → List String → Option error
  nextErr : String → Option error

/-- The ledger does not fault. -/
structure Ledger.NoFault (L : Ledger) : Prop where
  get : ∀ k, L.getErr k = none
  put : ∀ k v, L.putErr k v = none
  del : ∀ k, L.delErr k = none
  range : ∀ s e, L.rangeErr s e = none
  composite : ∀ n ps, L.compositeErr n ps = none
  next : ∀ k, L.nextErr k = none

/-- Modelled from the spec: `get(key) -> bytes|absent` of the World State Client (§4.1),
the stub's `GetState`, which is not in the sources: a fault is an error, a key without
value is "absent" (Go `nil`) and no error. -/
def GetState (L : Ledger) (ws : WorldState) (key : String) : Except error (Option Bytes) :=
  match L.getErr key with
  | some err => Except.error err
  | none => Except.ok (ws.get key)

/-- Modelled from the spec: `put(key, bytes)` of the World State Client (§4.1), the stub's
`PutState`, which is not in the sources: an atomic upsert, or a fault that writes nothing. -/
def PutState (L : Ledger) (ws : WorldState) (key : String) (value : Bytes) :
    Option error × WorldState :=
  match L.putErr key value with
  | some err => (some err, ws)
  | none => (none, ws.put key value)

/-- Modelled from the spec: `delete(key)` of the World State Client (§4.1), the stub's
`DelState`, which is not in the sources: an atomic removal, or a fault that removes
nothing. -/
def DelState (L : Ledger) (ws : WorldState) (key : String) : Option error × WorldState :=
  match L.delErr key with
  | some err => (some err, ws)
  | none => (none, ws.del key)

/-- Modelled from the spec: membership of a key in the half-open interval of the World State
Client's `rangeScan` (§4.1); an empty bound is no bound. -/
def inRange (startKey endKey key : String) : Bool :=
  (startKey = "" ∨ ¬ keyLt key startKey) ∧ (endKey = "" ∨ keyLt key endKey)

/-- Modelled from the spec: `rangeScan(startKey, endKey)` of the World State Client
(§4.1), the stub's `GetStateByRange`, which is not in the sources: the entries of the
half-open key interval in key-lexicographic order, empty bounds on both ends meaning
"scan everything". The result is the iterator, kept as the list of entries it will yield. -/
def GetStateByRange (L : Ledger) (ws : WorldState) (startKey endKey : String) :
    Except error (List (String × Bytes)) :=
  match L.rangeErr startKey endKey with
  | some err => Except.error err
  | none => Except.ok (ws.entries.filter (fun kv => inRange startKey endKey kv.1))

/-- Modelled from the spec: `buildCompositeKey(namespace, keyParts)` of the World State
Client (§4.1, §6: "namespace + separator-delimited ordered key parts"), which is not in the
sources. The separator is the stub's U+0000, which also leads every composite key. -/
def createCompositeKey (objectType : String) (attributes : List String) : String :=
  attributes.foldl (fun ck att => ck ++ att ++ String.singleton (Char.ofNat 0))
    (String.singleton (Char.ofNat 0) ++ objectType ++ String.singleton (Char.ofNat 0))

/-- Modelled from the spec: `partialCompositeKeyScan(namespace, keyParts)` of the World
State Client (§4.1), the stub's `GetStateByPartialCompositeKey`, which is not in the
sources: all stored entries whose key begins with the encoding of the namespace and the
given key parts, in key order. The result is the iterator, as for `GetStateByRange`. -/
def GetStateByPartialCompositeKey (L : Ledger) (ws : WorldState) (objectType : String)
    (keys : List String) : Except error (List (String × Bytes)) :=
  match L.compositeErr objectType keys with
  | some err => Except.error err
  | none =>
    Except.ok (ws.entries.filter
      (fun kv => (createCompositeKey objectType keys).data.isPrefixOf kv.1.data))

/-! ## The contract (source lines 66-230) -/

/-- First record of `InitLedger` (source line 69). -/
def seed1 : Transaction :=
  { Amount := 100, Location := "40.6935385, -73.8555598", Reciever := "New York Dispensary 1",
    Sender := "Mary Anne Kate", Status := "Pending", Timestamp := "2023-09-14 18:00:23",
    TransactionID := "1",
    TransactionPurchase :=
      { AmountInGrams := 14, AmountInMiligramsOfTotalTHC := 2800, Category := "Flower",
        Cost := 100, FedTax := 10, Name := "Green Crack", StateTax := 14,
        THCPercent := float64.point20, WeFee := 1 },
    TypeOfTransaction := "PUREPU" }

/-- Second record of `InitLedger` (source line 70). -/
def seed2 : Transaction :=
  { Amount := 50, Location := "40.6935385, -73.8555598", Reciever := "New York Dispensary 2",
    Sender := "John Jones", Status := "Pending", Timestamp := "2023-09-14 19:00:23",
    TransactionID := "2",
    TransactionPurchase :=
      { AmountInGrams := 14, AmountInMiligramsOfTotalTHC := 2800, Category := "Flower",
        Cost := 50, FedTax := 5, Name := "Sour Diesel", StateTax := 10,
        THCPercent := float64.point20, WeFee := 1 },
    TypeOfTransaction := "PUREPU" }

/-- Third record of `InitLedger` (source line 71). -/
def seed3 : Transaction :=
  { Amount := 75, Location := "45.6935385, -69.8555598", Reciever := "New York Dispensary 3",
    Sender := "Jimmy Nixon", Status := "Pending", Timestamp := "2023-09-17 20:00:23",
    TransactionID := "3",
    TransactionPurchase :=
      { AmountInGrams := 14, AmountInMiligramsOfTotalTHC := 2800, Category := "Flower",
        Cost := 75, FedTax := 7, Name := "Blue Dream", StateTax := 9,
        THCPercent := float64.point20, WeFee := 1 },
    TypeOfTransaction := "PUREPU" }

/-- Fourth record of `InitLedger` (source line 72). -/
def seed4 : Transaction :=
  { Amount := 100, Location := "40.6935385, -73.8555598", Reciever := "New York Dispensary 4",
    Sender := "Jimmy Cricket", Status := "Pending", Timestamp := "2023-09-19 18:00:23",
    TransactionID := "4",
    TransactionPurchase :=
      { AmountInGrams := 14, AmountInMiligramsOfTotalTHC := 2800, Category := "Flower",
        Cost := 100, FedTax := 10, Name := "Northern Lights", StateTax := 14,
        THCPercent := float64.point20, WeFee := 1 },
    TypeOfTransaction := "PUREPU" }

/-- The slice `transactions` of `InitLedger` (source lines 68-73). -/
def seedTransactions : List Transaction := [seed1, seed2, seed3, seed4]

/-- The loop of `InitLedger` (source lines 74-84) over the transactions still to write. -/
def InitLedger.loop (J : Codec) (L : Ledger) :
    List Transaction → WorldState → Option error × WorldState
  | [], ws => (none, ws)
  | transaction :: rest, ws =>
    match J.Marshal transaction with
    | Except.error err => (some err, ws)
    | Except.ok transactionJSON =>
      match PutState L ws transaction.TransactionID transactionJSON with
      | (some err, ws') => (some ("failed to put to world state. " ++ err), ws')
      | (none, ws') => InitLedger.loop J L rest ws'

/-- `InitLedger` (source lines 67-85): the returned error (`none` for `nil`) and the world
state after the call. -/
def InitLedger (J : Codec) (L : Ledger) (ws : WorldState) : Option error × WorldState :=
  InitLedger.loop J L seedTransactions ws

/-- `TransactionExists` (source lines 199-205). -/
def TransactionExists (L : Ledger) (ws : WorldState) (transactionID : String) :
    Except error Bool :=
  match GetState L ws transactionID with
  | Except.error err => Except.error ("failed to read from world state: " ++ err)
  | Except.ok transactionJSON => Except.ok transactionJSON.isSome

/-- `CreateTransaction` (source lines 89-113): the returned error (`none` for `nil`) and the
world state after the call. -/
def CreateTransaction (J : Codec) (L : Ledger) (ws : WorldState) (transactionID : String)
    (amount : float64) (location reciever sender status timestamp : String)
    (transactionPurchase : TransactionPurchase) (typeOfTransaction : String) :
    Option error × WorldState :=
  match TransactionExists L ws transactionID with
  | Except.error err => (some err, ws)
  | Except.ok true => (some ("the transaction " ++ transactionID ++ " already exists"), ws)
  | Except.ok false =>
    let transaction : Transaction :=
      { Amount := amount
        Location := location
        Reciever := reciever
        Sender := sender
        Status := status
        Timestamp := timestamp
        TransactionID := transactionID
        TransactionPurchase := transactionPurchase
        TypeOfTransaction := typeOfTransaction }
    match J.Marshal transaction with
    | Except.error err => (some err, ws)
    | Except.ok transactionJSON => PutState L ws transactionID transactionJSON

/-- `ReadTransaction` (source lines 116-130). -/
def ReadTransaction (J : Codec) (L : Ledger) (ws : WorldState) (transactionID : String) :
    Except error Transaction :=
  match GetState L ws transactionID with
  | Except.error err => Except.error ("failed to read from world state: " ++ err)
  | Except.ok none =>
    Except.error ("the transaction " ++ transactionID ++ " does not exist")
  | Except.ok (some transactionJSON) =>
    match J.Unmarshal transactionJSON with
    | Except.error err => Except.error err
    | Except.ok transaction => Except.ok transaction

/-- The iterator loop shared by `ReadTransactionByLocation` (source lines 141-154) and
`GetAllTransactions` (source lines 216-229): `resultsIterator` is the list of entries still
to come, `transactions` the slice built so far. -/
def collect (J : Codec) (L : Ledger) :
    List (String × Bytes) → List Transaction → Except error (List Transaction)
  | [], transactions => Except.ok transactions
  | queryResponse :: resultsIterator, transactions =>
    match L.nextErr queryResponse.1 with
    | some err => Except.error err
    | none =>
      match J.Unmarshal queryResponse.2 with
      | Except.error err => Except.error err
      | Except.ok transaction => collect J L resultsIterator (transactions ++ [transaction])

/-- `ReadTransactionByLocation` (source lines 133-155). -/
def ReadTransactionByLocation (J : Codec) (L : Ledger) (ws : WorldState) (location : String) :
    Except error (List Transaction) :=
  match GetStateByPartialCompositeKey L ws "location~name" [location] with
  | Except.error err => Except.error err
  | Except.ok resultsIterator => collect J L resultsIterator []

/-- `UpdateTransaction` (source lines 159-184): the returned error (`none` for `nil`) and the
world state after the call. -/
def UpdateTransaction (J : Codec) (L : Ledger) (ws : WorldState) (transactionID : String)
    (amount : float64) (location reciever sender status timestamp : String)
    (transactionPurchase : TransactionPurchase) (typeOfTransaction : String) :
    Option error × WorldState :=
  match TransactionExists L ws transactionID with
  | Except.error err => (some err, ws)
  | Except.ok false => (some ("the transaction " ++ transactionID ++ " does not exist"), ws)
  | Except.ok true =>
    let transaction : Transaction :=
      { Amount := amount
        Location := location
        Reciever := reciever
        Sender := sender
        Status := status
        Timestamp := timestamp
        TransactionID := transactionID
        TransactionPurchase := transactionPurchase
        TypeOfTransaction := typeOfTransaction }
    match J.Marshal transaction with
    | Except.error err => (some err, ws)
    | Except.ok transactionJSON => PutState L ws transactionID transactionJSON

/-- `DeleteTransaction` (source lines 187-196): the returned error (`none` for `nil`) and the
world state after the call. -/
def DeleteTransaction (L : Ledger) (ws : WorldState) (transactionID : String) :
    Option error × WorldState :=
  match TransactionExists L ws transactionID with
  | Except.error err => (some err, ws)
  | Except.ok false => (some ("the transaction " ++ transactionID ++ " does not exist"), ws)
  | Except.ok true => DelState L ws transactionID

/-- `GetAllTransactions` (source lines 208-230). -/
def GetAllTransactions (J : Codec) (L : Ledger) (ws : WorldState) :
    Except error (List Transaction) :=
  match GetStateByRange L ws "" "" with
  | Except.error err => Except.error err
  | Except.ok resultsIterator => collect J L resultsIterator []

/-- `CreateTransaction` with the fields of `t` as arguments. -/
def createOf (J : Codec) (L : Ledger) (ws : WorldState) (t : Transaction) :
    Option error × WorldState :=
  CreateTransaction J L ws t.TransactionID t.Amount t.Location t.Reciever t.Sender t.Status
    t.Timestamp t.TransactionPurchase t.TypeOfTransaction

/-- `UpdateTransaction` with the fields of `t` as arguments. -/
def updateOf (J : Codec) (L : Ledger) (ws : WorldState) (t : Transaction) :
    Option error × WorldState :=
  UpdateTransaction J L ws t.TransactionID t.Amount t.Location t.Reciever t.Sender t.Status
    t.Timestamp t.TransactionPurchase t.TypeOfTransaction

/-! ## Server configuration (source lines 260-316) -/

/-- The operating system as `getTLSProperties` uses it, which is not part of the source
file: `os.LookupEnv` (`none` when the variable is not set) and `os.ReadFile`. -/
structure Host where
  LookupEnv : String → Option String
  ReadFile : String → Except error Bytes

/-- The fields of `shim.TLSProperties` that `getTLSProperties` fills in (source lines
292-297); a `nil` slice is `none`. -/
structure TLSProperties where
  Disabled : Bool
  Key : Option Bytes
  Cert : Option Bytes
  ClientCACerts : Option Bytes
  deriving DecidableEq, Repr

/-- `getEnvOrDefault` (source lines 300-306). -/
def getEnvOrDefault (H : Host) (env defaultVal : String) : String :=
  match H.LookupEnv env with
  | none => defaultVal
  | some value => value

/-- `getBoolOrDefault` (source lines 310-316); `strconv.ParseBool` is not part of the source
file and is a parameter. -/
def getBoolOrDefault (ParseBool : String → Except error Bool) (value : String)
    (defaultVal : Bool) : Bool :=
  match ParseBool value with
  | Except.error _ => defaultVal
  | Except.ok parsed => parsed

/-- `getTLSProperties` (source lines 261-298): the returned properties, or the message of
the `log.Panicf` that ends the call. -/
def getTLSProperties (ParseBool : String → Except error Bool) (H : Host) :
    Except String TLSProperties :=
  let tlsDisabledStr := getEnvOrDefault H "CHAINCODE_TLS_DISABLED" "true"
  let key := getEnvOrDefault H "CHAINCODE_TLS_KEY" ""
  let cert := getEnvOrDefault H "CHAINCODE_TLS_CERT" ""
  let clientCACert := getEnvOrDefault H "CHAINCODE_CLIENT_CA_CERT" ""
  let tlsDisabled := getBoolOrDefault ParseBool tlsDisabledStr false
  let loaded : Except String (Option Bytes × Option Bytes) :=
    if !tlsDisabled then
      match H.ReadFile key with
      | Except.error err =>
        Except.error ("Failed to load key, error while reading the crypto file: " ++ err)
      | Except.ok keyBytes =>
        match H.ReadFile cert with
        | Except.error err =>
          Except.error ("Failed to load cert, error while reading the crypto file: " ++ err)
        | Except.ok certBytes => Except.ok (some keyBytes, some certBytes)
    else Except.ok (none, none)
  match loaded with
  | Except.error msg => Except.error msg
  | Except.ok (keyBytes, certBytes) =>
    if clientCACert ≠ "" then
      match H.ReadFile clientCACert with
      | Except.error err =>
        Except.error
          ("Failed to load clientCACert, error while reading the crypto file: " ++ err)
      | Except.ok clientCACertBytes =>
        Except.ok
          { Disabled := tlsDisabled, Key := keyBytes, Cert := certBytes,
            ClientCACerts := some clientCACertBytes }
    else
      Except.ok
        { Disabled := tlsDisabled, Key := keyBytes, Cert := certBytes, ClientCACerts := none }

/-! ## Sequences of calls -/

/-- Seeding: `CreateTransaction` with the fields of each record in turn, stopping at the
first call that returns an error. -/
def createAll (J : Codec) (L : Ledger) : List Transaction → WorldState → Option error × WorldState
  | [], ws => (none, ws)
  | t :: rest, ws =>
    match createOf J L ws t with
    | (some err, ws') => (some err, ws')
    | (none, ws') => createAll J L rest ws'

/-- The calls of the contract that write to the world state, with their arguments. -/
inductive Call where
  | initLedger
  | create (transactionID : String) (amount : float64)
      (location reciever sender status timestamp : String)
      (transactionPurchase : TransactionPurchase) (typeOfTransaction : String)
  | update (transactionID : String) (amount : float64)
      (location reciever sender status timestamp : String)
      (transactionPurchase : TransactionPurchase) (typeOfTransaction : String)
  | delete (transactionID : String)

/-- Running a call: the returned error and the world state after it. -/
def Call.run (J : Codec) (L : Ledger) (ws : WorldState) : Call → Option error × WorldState
  | Call.initLedger => InitLedger J L ws
  | Call.create transactionID amount location reciever sender status timestamp
      transactionPurchase typeOfTransaction =>
    CreateTransaction J L ws transactionID amount location reciever sender status timestamp
      transactionPurchase typeOfTransaction
  | Call.update transactionID amount location reciever sender status timestamp
      transactionPurchase typeOfTransaction =>
    UpdateTransaction J L ws transactionID amount location reciever sender status timestamp
      transactionPurchase typeOfTransaction
  | Call.delete transactionID => DeleteTransaction L ws transactionID

/-- The world states reached from the empty one by a sequence of calls, each of which
satisfies `allowed` and runs against a ledger of its own (faulting or not); a call that
returns an error counts, with the world state it leaves. -/
inductive Reachable (J : Codec) (allowed : Call → Prop) : WorldState → Prop
  | empty : Reachable J allowed WorldState.empty
  | step (L : Ledger) (c : Call) (ws : WorldState) :
      allowed c → Reachable J allowed ws → Reachable J allowed (c.run J L ws).2

/-- The key lies in the composite-key namespace "location~name": it begins with the encoding
of that namespace, as every composite key of the namespace does. -/
def isLocationIndexKey (key : String) : Bool :=
  (createCompositeKey "location~name" []).data.isPrefixOf key.data

/-- The call passes no `TransactionID` that lies in the composite-key namespace
"location~name". -/
def Call.offIndex : Call → Prop
  | Call.initLedger => True
  | Call.create transactionID _ _ _ _ _ _ _ _ => isLocationIndexKey transactionID = false
  | Call.update transactionID _ _ _ _ _ _ _ _ => isLocationIndexKey transactionID = false
  | Call.delete _ => True

/-- No key of the world state lies in the composite-key namespace "location~name". -/
def IndexEmpty (ws : WorldState) : Prop :=
  ∀ k ∈ keysOf ws.entries, isLocationIndexKey k = false

/-- Every stored value is what the serializer writes for a record whose `TransactionID` is
the key the value is stored under. -/
def Stamped (J : Codec) (ws : WorldState) : Prop :=
  ∀ kv ∈ ws.entries, ∃ t, J.Marshal t = Except.ok kv.2 ∧ t.TransactionID = kv.1

/-- The entry `kv` holds the record `t`: its key is the record's `TransactionID`, its value
is what the serializer writes for `t`, and reads back as `t`. -/
def Holds (J : Codec) (kv : String × Bytes) (t : Transaction) : Prop :=
  kv.1 = t.TransactionID ∧ J.Marshal t = Except.ok kv.2 ∧ J.Unmarshal kv.2 = Except.ok t

/-! ## Concrete collaborators, for instantiating the theorems -/

/-- A ledger that never faults. -/
def Ledger.healthy : Ledger :=
  { getErr := fun _ => none
    putErr := fun _ _ => none
    delErr := fun _ => none
    rangeErr := fun _ _ => none
    compositeErr := fun _ _ => none
    nextErr := fun _ => none }

/-- A ledger on which reads work and every put and delete faults. -/
def Ledger.readOnly : Ledger :=
  { Ledger.healthy with
    putErr := fun _ _ => some "read-only"
    delErr := fun _ => some "read-only" }

/-- A ledger on which every call faults. -/
def Ledger.down : Ledger :=
  { getErr := fun _ => some "unavailable"
    putErr := fun _ _ => some "unavailable"
    delErr := fun _ => some "unavailable"
    rangeErr := fun _ _ => some "unavailable"
    compositeErr := fun _ _ => some "unavailable"
    nextErr := fun _ => some "unavailable" }

/-- The boolean literals of Go's `strconv.ParseBool`: "1", "t", "T", "TRUE", "true", "True"
and "0", "f", "F", "FALSE", "false", "False"; every other string is an error. -/
def strconvParseBool (str : String) : Except error Bool :=
  if str ∈ ["1", "t", "T", "TRUE", "true", "True"] then Except.ok true
  else if str ∈ ["0", "f", "F", "FALSE", "false", "False"] then Except.ok false
  else Except.error ("strconv.ParseBool: parsing " ++ String.singleton (Char.ofNat 34) ++ str ++
    String.singleton (Char.ofNat 34) ++ ": invalid syntax")

/-- A host with no environment variable set and no readable file. -/
def Host.bare : Host :=
  { LookupEnv := fun _ => none
    ReadFile := fun _ => Except.error "no such file or directory" }

/-- A host on which `CHAINCODE_TLS_DISABLED` is "yes", the key and certificate variables
name readable files, and nothing else is set or readable. -/
def Host.misconfigured : Host :=
  { LookupEnv := fun env =>
      if env = "CHAINCODE_TLS_DISABLED" then some "yes"
      else if env = "CHAINCODE_TLS_KEY" then some "key.pem"
      else if env = "CHAINCODE_TLS_CERT" then some "cert.pem"
      else none
    ReadFile := fun name =>
      if name = "key.pem" then Except.ok [1]
      else if name = "cert.pem" then Except.ok [2]
      else Except.error "no such file or directory" }

namespace wire

/-- A string as its length followed by its code points. -/
def putString (s : String) : Bytes := s.data.length :: s.data.map Char.toNat

/-- A finite number as sign, significand, exponent sign and exponent magnitude. -/
def putFloat : float64 → Option Bytes
  | float64.finite neg m e =>
    some [if neg then 1 else 0, m, if e < 0 then 1 else 0, e.natAbs]
  | _ => none

/-- Reads a string written by `putString`. -/
def getString : Bytes → Option (String × Bytes)
  | [] => none
  | n :: rest =>
    if rest.length < n then none
    else some (String.mk ((rest.take n).map Char.ofNat), rest.drop n)

/-- Reads a number written by `putFloat`. -/
def getFloat : Bytes → Option (float64 × Bytes)
  | s :: m :: es :: e :: rest =>
    some (float64.finite (decide (s = 1)) m (if es = 1 then - (e : Int) else (e : Int)), rest)
  | _ => none

/-- The nested record, field by field in the order of the struct. -/
def putPurchase (p : TransactionPurchase) : Option Bytes := do
  let a ← putFloat p.AmountInGrams
  let b ← putFloat p.AmountInMiligramsOfTotalTHC
  let c ← putFloat p.Cost
  let d ← putFloat p.FedTax
  let e ← putFloat p.StateTax
  let f ← putFloat p.THCPercent
  let g ← putFloat p.WeFee
  pure (a ++ b ++ putString p.Category ++ c ++ d ++ putString p.Name ++ e ++ f ++ g)

/-- Reads a nested record written by `putPurchase`. -/
def getPurchase (bs : Bytes) : Option (TransactionPurchase × Bytes) := do
  let (a, bs) ← getFloat bs
  let (b, bs) ← getFloat bs
  let (cat, bs) ← getString bs
  let (c, bs) ← getFloat bs
  let (d, bs) ← getFloat bs
  let (name, bs) ← getString bs
  let (e, bs) ← getFloat bs
  let (f, bs) ← getFloat bs
  let (g, bs) ← getFloat bs
  pure ({ AmountInGrams := a, AmountInMiligramsOfTotalTHC := b, Category := cat, Cost := c,
          FedTax := d, Name := name, StateTax := e, THCPercent := f, WeFee := g }, bs)

/-- The record, field by field in the order of the struct; a NaN or an infinity is an
error, as it is for `json.Marshal`. -/
def Marshal (t : Transaction) : Except error Bytes :=
  match putFloat t.Amount, putPurchase t.TransactionPurchase with
  | some a, some p =>
    Except.ok (a ++ putString t.Location ++ putString t.Reciever ++ putString t.Sender ++
      putString t.Status ++ putString t.Timestamp ++ putString t.TransactionID ++ p ++
      putString t.TypeOfTransaction)
  | _, _ => Except.error "json: unsupported value"

/-- Reads a record written by `Marshal`; trailing or missing bytes are an error. -/
def Unmarshal (bs : Bytes) : Except error Transaction :=
  let r : Option (Transaction × Bytes) := do
    let (a, bs) ← getFloat bs
    let (loc, bs) ← getString bs
    let (rcv, bs) ← getString bs
    let (snd, bs) ← getString bs
    let (st, bs) ← getString bs
    let (ts, bs) ← getString bs
    let (id, bs) ← getString bs
    let (p, bs) ← getPurchase bs
    let (ty, bs) ← getString bs
    pure ({ Amount := a, Location := loc, Reciever := rcv, Sender := snd, Status := st,
            Timestamp := ts, TransactionID := id, TransactionPurchase := p,
            TypeOfTransaction := ty }, bs)
  match r with
  | some (t, []) => Except.ok t
  | _ => Except.error "unexpected end of input"

end wire

/-- A concrete serializer with which the theorems are instantiated: a record is written
field by field, strings length-prefixed. -/
def wireCodec : Codec := { Marshal := wire.Marshal, Unmarshal := wire.Unmarshal }

/-- Lean's `String` holds well-formed text only. To write down a Go string with a byte that
is not part of a well-formed UTF-8 sequence, the byte `0x80 + n` is written here as the
private-use code point `U+EF80 + n`; this tells those code points. -/
def isIllFormedByte (c : Char) : Bool :=
  decide (0xEF80 ≤ c.toNat) && decide (c.toNat ≤ 0xEFFF)

/-- What `json.Marshal` writes for a string: every byte that is not part of a well-formed
UTF-8 sequence becomes U+FFFD, the rest is kept. -/
def coerceUTF8 (s : String) : String :=
  String.mk (s.data.map fun c => if isIllFormedByte c then Char.ofNat 0xFFFD else c)

/-- A serializer that treats strings as `json.Marshal` does: it writes the record with
every string field coerced by `coerceUTF8`, in the format of `wireCodec`. -/
def coercingCodec : Codec :=
  { Marshal := fun t =>
      wire.Marshal
        { t with
          Location := coerceUTF8 t.Location
          Reciever := coerceUTF8 t.Reciever
          Sender := coerceUTF8 t.Sender
          Status := coerceUTF8 t.Status
          Timestamp := coerceUTF8 t.Timestamp
          TransactionID := coerceUTF8 t.TransactionID
          TransactionPurchase :=
            { t.TransactionPurchase with
              Category := coerceUTF8 t.TransactionPurchase.Category
              Name := coerceUTF8 t.TransactionPurchase.Name }
          TypeOfTransaction := coerceUTF8 t.TypeOfTransaction }
    Unmarshal := wire.Unmarshal }

/-- A record used as concrete input. -/
def sampleTx : Transaction :=
  { Amount := 20, Location := "Queens", Reciever := "Shop", Sender := "Ann", Status := "Pending",
    Timestamp := "2024-01-01 10:00:00", TransactionID := "7",
    TransactionPurchase :=
      { AmountInGrams := 1, AmountInMiligramsOfTotalTHC := 200, Category := "Flower", Cost := 20,
        FedTax := 2, Name := "Haze", StateTax := 3, THCPercent := float64.point20, WeFee := 1 },
    TypeOfTransaction := "PUREPU" }

/-- The record `sampleTx` with another status. -/
def sampleTxComplete : Transaction := { sampleTx with Status := "Complete" }

/-- The world state that holds `sampleTx` and nothing else. -/
def sampleStore : WorldState :=
  (createOf wireCodec Ledger.healthy WorldState.empty sampleTx).2

/-- The record `sampleTx` with a NaN amount. -/
def sampleTxNaN : Transaction := { sampleTx with Amount := float64.nan }

/-- A record whose `TransactionID` is the composite key of the namespace "location~name" with
leading part "Queens", and whose `Location` is "Bronx". -/
def craftedTx : Transaction :=
  { sampleTx with
    TransactionID := createCompositeKey "location~name" ["Queens"]
    Location := "Bronx" }

/-- The world state after `CreateTransaction` with the fields of `craftedTx` on the empty
world state. -/
def craftedStore : WorldState :=
  (createOf wireCodec Ledger.healthy WorldState.empty craftedTx).2

/-- A record located in "Queens" whose `TransactionID` is the composite key of the namespace
"location~name" with leading part "Queens". -/
def indexedTx : Transaction :=
  { sampleTx with TransactionID := createCompositeKey "location~name" ["Queens"] }

/-- The world state that holds `sampleTx` under "7" and, after it in key order, bytes under
"8" that are no record. -/
def corruptStore : WorldState := sampleStore.put "8" [0]

/-- The record `sampleTx` under the id "9". -/
def sampleTx9 : Transaction := { sampleTx with TransactionID := "9" }

/-- The record `sampleTx` with the Go string of the single byte 0xFF as `TransactionID`. -/
def illFormedTx : Transaction :=
  { sampleTx with TransactionID := String.mk [Char.ofNat 0xEFFF] }

/-- The world state after `CreateTransaction` with the fields of `illFormedTx` on the empty
world state, with the coercing serializer. -/
def illFormedStore : WorldState :=
  (createOf coercingCodec Ledger.healthy WorldState.empty illFormedTx).2

/-- The bytes the coercing serializer writes for `illFormedTx`. -/
def illFormedBytes : Bytes :=
  match coercingCodec.Marshal illFormedTx with
  | Except.ok b => b
  | Except.error _ => []

/-! ## Lemmas on the world state -/

theorem lookupKey_insertKey_self (k : String) (v : Bytes) (l : List (String × Bytes)) :
    lookupKey k (insertKey k v l) = some v := by
  induction l with
  | nil => simp [insertKey, lookupKey]
  | cons hd tl ih =>
    obtain ⟨k', v'⟩ := hd
    unfold insertKey
    split_ifs with h1 h2
    · simp [lookupKey]
    · simp [lookupKey]
    · simp [lookupKey, h2, ih]

theorem lookupKey_insertKey_ne (k x : String) (v : Bytes) (l : List (String × Bytes))
    (hx : x ≠ k) : lookupKey x (insertKey k v l) = lookupKey x l := by
  induction l with
  | nil => simp [insertKey, lookupKey, hx]
  | cons hd tl ih =>
    obtain ⟨k', v'⟩ := hd
    unfold insertKey
    split_ifs with h1 h2
    · simp [lookupKey, hx]
    · subst h2; simp [lookupKey, hx]
    · simp only [lookupKey, ih]

theorem lookupKey_eraseKey_self (k : String) (l : List (String × Bytes)) :
    lookupKey k (eraseKey k l) = none := by
  induction l with
  | nil => simp [eraseKey, lookupKey]
  | cons hd tl ih =>
    obtain ⟨k', v'⟩ := hd
    unfold eraseKey
    split_ifs with h1
    · exact ih
    · simp [lookupKey, h1, ih]

theorem lookupKey_eraseKey_ne (k x : String) (l : List (String × Bytes)) (hx : x ≠ k) :
    lookupKey x (eraseKey k l) = lookupKey x l := by
  induction l with
  | nil => simp [eraseKey, lookupKey]
  | cons hd tl ih =>
    obtain ⟨k', v'⟩ := hd
    unfold eraseKey
    split_ifs with h1
    · subst h1; simp [lookupKey, hx, ih]
    · simp only [lookupKey, ih]

theorem WorldState.get_put_self (ws : WorldState) (k : String) (v : Bytes) :
    (ws.put k v).get k = some v :=
  lookupKey_insertKey_self k v ws.entries

theorem WorldState.get_put_ne (ws : WorldState) (k x : String) (v : Bytes) (hx : x ≠ k) :
    (ws.put k v).get x = ws.get x :=
  lookupKey_insertKey_ne k x v ws.entries hx

theorem WorldState.get_del_self (ws : WorldState) (k : String) : (ws.del k).get k = none :=
  lookupKey_eraseKey_self k ws.entries

theorem WorldState.get_del_ne (ws : WorldState) (k x : String) (hx : x ≠ k) :
    (ws.del k).get x = ws.get x :=
  lookupKey_eraseKey_ne k x ws.entries hx

theorem Ledger.healthy_noFault : Ledger.healthy.NoFault :=
  ⟨fun _ => rfl, fun _ _ => rfl, fun _ => rfl, fun _ _ => rfl, fun _ _ => rfl, fun _ => rfl⟩

set_option maxRecDepth 8000 in
theorem wireCodec_roundTrip_seeds : ∀ t ∈ seedTransactions, wireCodec.RoundTrip t := by
  intro t ht
  simp only [seedTransactions, List.mem_cons, List.mem_singleton, List.not_mem_nil,
    or_false] at ht
  rcases ht with rfl | rfl | rfl | rfl <;> exact ⟨_, rfl, rfl⟩

theorem wireCodec_roundTrip_sampleTx : wireCodec.RoundTrip sampleTx := ⟨_, rfl, rfl⟩

/-! ## Unfolding the calls -/

theorem createOf_eq (J : Codec) (L : Ledger) (ws : WorldState) (t : Transaction) :
    createOf J L ws t =
      match TransactionExists L ws t.TransactionID with
      | Except.error err => (some err, ws)
      | Except.ok true =>
        (some ("the transaction " ++ t.TransactionID ++ " already exists"), ws)
      | Except.ok false =>
        match J.Marshal t with
        | Except.error err => (some err, ws)
        | Except.ok transactionJSON => PutState L ws t.TransactionID transactionJSON := by
  cases t; rfl

theorem updateOf_eq (J : Codec) (L : Ledger) (ws : WorldState) (t : Transaction) :
    updateOf J L ws t =
      match TransactionExists L ws t.TransactionID with
      | Except.error err => (some err, ws)
      | Except.ok false =>
        (some ("the transaction " ++ t.TransactionID ++ " does not exist"), ws)
      | Except.ok true =>
        match J.Marshal t with
        | Except.error err => (some err, ws)
        | Except.ok transactionJSON => PutState L ws t.TransactionID transactionJSON := by
  cases t; rfl

theorem transactionExists_of_getErr_none (L : Ledger) (ws : WorldState) (id : String)
    (h : L.getErr id = none) : TransactionExists L ws id = Except.ok (ws.get id).isSome := by
  simp [TransactionExists, GetState, h]

theorem transactionExists_of_getErr_some (L : Ledger) (ws : WorldState) (id : String)
    (e : error) (h : L.getErr id = some e) :
    TransactionExists L ws id = Except.error ("failed to read from world state: " ++ e) := by
  simp [TransactionExists, GetState, h]

theorem readTransaction_of_stored (J : Codec) (L : Ledger) (ws : WorldState) (id : String)
    (b : Bytes) (t : Transaction) (hg : L.getErr id = none) (hs : ws.get id = some b)
    (hu : J.Unmarshal b = Except.ok t) : ReadTransaction J L ws id = Except.ok t := by
  simp [ReadTransaction, GetState, hg, hs, hu]

theorem readTransaction_of_absent (J : Codec) (L : Ledger) (ws : WorldState) (id : String)
    (hg : L.getErr id = none) (hs : ws.get id = none) :
    ReadTransaction J L ws id =
      Except.error ("the transaction " ++ id ++ " does not exist") := by
  simp [ReadTransaction, GetState, hg, hs]

/-- A successful create found the key absent with a probe that did not fault, marshalled the
record and put the bytes under the key. -/
theorem createOf_success (J : Codec) (L : Ledger) (ws : WorldState) (t : Transaction)
    (h : (createOf J L ws t).1 = none) :
    L.getErr t.TransactionID = none ∧ ws.get t.TransactionID = none ∧
      ∃ b, J.Marshal t = Except.ok b ∧ L.putErr t.TransactionID b = none ∧
        (createOf J L ws t).2 = ws.put t.TransactionID b := by
  rw [createOf_eq] at h ⊢
  cases hg : L.getErr t.TransactionID with
  | some e =>
    rw [transactionExists_of_getErr_some L ws _ e hg] at h
    simp at h
  | none =>
    rw [transactionExists_of_getErr_none L ws _ hg] at h ⊢
    cases hs : ws.get t.TransactionID with
    | some v => rw [hs] at h; simp at h
    | none =>
      rw [hs] at h
      simp only [Option.isSome_none] at h ⊢
      cases hm : J.Marshal t with
      | error e => rw [hm] at h; simp at h
      | ok b =>
        rw [hm] at h
        simp only at h ⊢
        cases hp : L.putErr t.TransactionID b with
        | some e => simp [PutState, hp] at h
        | none => exact ⟨trivial, trivial, b, rfl, hp, by simp [PutState, hp]⟩

/-! ## Lemmas on scans -/

theorem lookupKey_eq_none_iff (k : String) (l : List (String × Bytes)) :
    lookupKey k l = none ↔ k ∉ keysOf l := by
  induction l with
  | nil => simp [lookupKey, keysOf]
  | cons hd tl ih =>
    obtain ⟨k', v'⟩ := hd
    by_cases h : k = k'
    · simp [lookupKey, keysOf, h]
    · have ih' := ih
      simp only [keysOf] at ih'
      simp [lookupKey, keysOf, h, ih']

theorem lookupKey_of_mem (l : List (String × Bytes)) (hs : (keysOf l).Pairwise keyLt)
    (k : String) (v : Bytes) (h : (k, v) ∈ l) : lookupKey k l = some v := by
  induction l with
  | nil => simp at h
  | cons hd tl ih =>
    obtain ⟨k', v'⟩ := hd
    have hs' : (k' :: keysOf tl).Pairwise keyLt := hs
    rw [List.pairwise_cons] at hs'
    rcases List.mem_cons.mp h with heq | hmem
    · cases heq
      simp [lookupKey]
    · have hk : k ∈ keysOf tl := List.mem_map.mpr ⟨(k, v), hmem, rfl⟩
      have hne : k ≠ k' := (keyLt_ne (hs'.1 k hk)).symm
      simp only [lookupKey, hne, if_false]
      exact ih hs'.2 hmem

theorem filter_inRange_all (l : List (String × Bytes)) :
    l.filter (fun kv => inRange "" "" kv.1) = l := by
  apply List.filter_eq_self.mpr
  intro kv _
  simp [inRange]

theorem keysOf_of_holds (J : Codec) (l : List (String × Bytes)) (rs : List Transaction)
    (h : List.Forall₂ (Holds J) l rs) : rs.map (fun t => t.TransactionID) = keysOf l := by
  induction h with
  | nil => rfl
  | cons hkv _ ih =>
    simp only [List.map_cons, keysOf] at ih ⊢
    rw [ih, hkv.1]

theorem holds_of_mem (J : Codec) (l : List (String × Bytes)) (rs : List Transaction)
    (h : List.Forall₂ (Holds J) l rs) (r : Transaction) (hr : r ∈ rs) :
    ∃ kv ∈ l, Holds J kv r := by
  induction h with
  | nil => cases hr
  | @cons kv r' l' rs' hkv _ ih =>
    rcases List.mem_cons.mp hr with rfl | hr'
    · exact ⟨kv, List.mem_cons_self _ _, hkv⟩
    · obtain ⟨kv', hmem, hh⟩ := ih hr'
      exact ⟨kv', List.mem_cons_of_mem _ hmem, hh⟩

theorem collect_of_holds (J : Codec) (L : Ledger) (hn : ∀ k, L.nextErr k = none)
    (l : List (String × Bytes)) (rs : List Transaction) (h : List.Forall₂ (Holds J) l rs) :
    ∀ acc, collect J L l acc = Except.ok (acc ++ rs) := by
  induction h with
  | nil => intro acc; simp [collect]
  | cons hkv _ ih =>
    intro acc
    simp [collect, hn, hkv.2.2, ih]

theorem holds_insertKey (J : Codec) (k : String) (b : Bytes) (t : Transaction)
    (hR : Holds J (k, b) t) (l : List (String × Bytes)) (rs : List Transaction)
    (h : List.Forall₂ (Holds J) l rs) (hk : k ∉ keysOf l) :
    ∃ rs', List.Forall₂ (Holds J) (insertKey k b l) rs' ∧ rs'.Perm (t :: rs) := by
  induction h with
  | nil => exact ⟨[t], List.Forall₂.cons hR List.Forall₂.nil, List.Perm.refl _⟩
  | @cons kv r l' rs' hkv hrest ih =>
    obtain ⟨k', v'⟩ := kv
    have hk' : k ≠ k' ∧ k ∉ keysOf l' := by
      simpa [keysOf, not_or] using hk
    unfold insertKey
    split_ifs with h1 h2
    · exact ⟨t :: r :: rs', List.Forall₂.cons hR (List.Forall₂.cons hkv hrest), List.Perm.refl _⟩
    · exact absurd h2 hk'.1
    · obtain ⟨rs'', hf, hp⟩ := ih hk'.2
      exact ⟨r :: rs'', List.Forall₂.cons hkv hf,
        (List.Perm.cons r hp).trans (List.Perm.swap t r rs')⟩

theorem createAll_holds (J : Codec) (L : Ledger) (hL : L.NoFault) (ts : List Transaction) :
    ∀ (ws : WorldState) (rs0 : List Transaction),
      List.Forall₂ (Holds J) ws.entries rs0 →
      (∀ t ∈ ts, J.RoundTrip t) →
      (ts.map (fun t => t.TransactionID)).Nodup →
      (∀ t ∈ ts, ws.get t.TransactionID = none) →
      (createAll J L ts ws).1 = none ∧
        ∃ rs, List.Forall₂ (Holds J) (createAll J L ts ws).2.entries rs ∧
          rs.Perm (rs0 ++ ts) := by
  induction ts with
  | nil =>
    intro ws rs0 h0 _ _ _
    exact ⟨rfl, rs0, h0, by simp⟩
  | cons t rest ih =>
    intro ws rs0 h0 hv hd habs
    obtain ⟨b, hm, hu⟩ := hv t (List.mem_cons_self t rest)
    have hat : ws.get t.TransactionID = none := habs t (List.mem_cons_self t rest)
    have hc : createOf J L ws t = (none, ws.put t.TransactionID b) := by
      rw [createOf_eq, transactionExists_of_getErr_none L ws _ (hL.get _), hat]
      simp [hm, PutState, hL.put]
    have hstep : createAll J L (t :: rest) ws = createAll J L rest (ws.put t.TransactionID b) := by
      simp [createAll, hc]
    rw [List.map_cons, List.nodup_cons] at hd
    obtain ⟨rs1, hf1, hp1⟩ := holds_insertKey J t.TransactionID b t ⟨rfl, hm, hu⟩ ws.entries rs0 h0
      ((lookupKey_eq_none_iff _ _).mp hat)
    have habs' : ∀ t' ∈ rest, (ws.put t.TransactionID b).get t'.TransactionID = none := by
      intro t' ht'
      have hne : t'.TransactionID ≠ t.TransactionID := by
        intro heq
        exact hd.1 (heq ▸ List.mem_map.mpr ⟨t', ht', rfl⟩)
      rw [WorldState.get_put_ne ws _ _ b hne]
      exact habs t' (List.mem_cons_of_mem t ht')
    obtain ⟨hnone, rs, hf, hp⟩ := ih (ws.put t.TransactionID b) rs1 hf1
      (fun t' ht' => hv t' (List.mem_cons_of_mem t ht')) hd.2 habs'
    rw [hstep]
    refine ⟨hnone, rs, hf, hp.trans ?_⟩
    refine (List.Perm.append_right rest hp1).trans ?_
    exact (List.perm_middle : (rs0 ++ t :: rest).Perm (t :: (rs0 ++ rest))).symm

theorem collect_sound (J : Codec) (L : Ledger) (l : List (String × Bytes)) :
    ∀ (acc rs : List Transaction), collect J L l acc = Except.ok rs →
      ∀ r ∈ rs, r ∈ acc ∨ ∃ kv ∈ l, J.Unmarshal kv.2 = Except.ok r := by
  induction l with
  | nil =>
    intro acc rs h r hr
    simp only [collect, Except.ok.injEq] at h
    subst h
    exact Or.inl hr
  | cons kv rest ih =>
    intro acc rs h r hr
    unfold collect at h
    cases hn : L.nextErr kv.1 with
    | some e => rw [hn] at h; cases h
    | none =>
      rw [hn] at h
      cases hu : J.Unmarshal kv.2 with
      | error e => rw [hu] at h; cases h
      | ok t =>
        rw [hu] at h
        rcases ih _ rs h r hr with hacc | ⟨kv', hmem, hkv'⟩
        · rcases List.mem_append.mp hacc with ha | ht
          · exact Or.inl ha
          · rw [List.mem_singleton] at ht
            subst ht
            exact Or.inr ⟨kv, List.mem_cons_self _ _, hu⟩
        · exact Or.inr ⟨kv', List.mem_cons_of_mem _ hmem, hkv'⟩

/-! ## Lemmas on composite keys and reachable world states -/

theorem data_foldl_compositeKey (attributes : List String) :
    ∀ (ck : String), ∃ cs, (attributes.foldl
        (fun ck att => ck ++ att ++ String.singleton (Char.ofNat 0)) ck).data = ck.data ++ cs := by
  induction attributes with
  | nil => intro ck; exact ⟨[], by simp⟩
  | cons att rest ih =>
    intro ck
    obtain ⟨cs, hcs⟩ := ih (ck ++ att ++ String.singleton (Char.ofNat 0))
    refine ⟨att.data ++ (String.singleton (Char.ofNat 0)).data ++ cs, ?_⟩
    rw [List.foldl_cons, hcs]
    simp [String.data_append, List.append_assoc]

/-- Every composite key of a namespace begins with the encoding of the namespace. -/
theorem data_createCompositeKey (objectType : String) (attributes : List String) :
    ∃ cs, (createCompositeKey objectType attributes).data =
      (createCompositeKey objectType []).data ++ cs := by
  unfold createCompositeKey
  exact data_foldl_compositeKey attributes _

/-- A key outside the namespace "location~name" matches no partial composite key of it. -/
theorem not_compositePrefix_of_offIndex (attributes : List String) (key : String)
    (h : isLocationIndexKey key = false) :
    (createCompositeKey "location~name" attributes).data.isPrefixOf key.data = false := by
  obtain ⟨cs, hcs⟩ := data_createCompositeKey "location~name" attributes
  cases hp : (createCompositeKey "location~name" attributes).data.isPrefixOf key.data with
  | false => rfl
  | true =>
    rw [List.isPrefixOf_iff_prefix] at hp
    have hp' : (createCompositeKey "location~name" []).data <+: key.data :=
      List.IsPrefix.trans ⟨cs, hcs.symm⟩ hp
    rw [← List.isPrefixOf_iff_prefix] at hp'
    unfold isLocationIndexKey at h
    rw [hp'] at h
    cases h

theorem indexEmpty_put (ws : WorldState) (k : String) (v : Bytes) (h : IndexEmpty ws)
    (hk : isLocationIndexKey k = false) : IndexEmpty (ws.put k v) := by
  intro x hx
  rcases (mem_keysOf_insertKey k v ws.entries x).mp hx with rfl | hx'
  · exact hk
  · exact h x hx'

theorem mem_keysOf_eraseKey (k x : String) (l : List (String × Bytes))
    (h : x ∈ keysOf (eraseKey k l)) : x ∈ keysOf l := by
  induction l with
  | nil => simp [eraseKey, keysOf] at h
  | cons hd tl ih =>
    obtain ⟨k', v'⟩ := hd
    unfold eraseKey at h
    split_ifs at h with h1
    · exact List.mem_cons_of_mem _ (ih h)
    · rcases List.mem_cons.mp h with rfl | h'
      · exact List.mem_cons_self _ _
      · exact List.mem_cons_of_mem _ (ih h')

theorem indexEmpty_del (ws : WorldState) (k : String) (h : IndexEmpty ws) :
    IndexEmpty (ws.del k) :=
  fun x hx => h x (mem_keysOf_eraseKey k x ws.entries hx)

theorem indexEmpty_putState (L : Ledger) (ws : WorldState) (k : String) (v : Bytes)
    (h : IndexEmpty ws) (hk : isLocationIndexKey k = false) : IndexEmpty (PutState L ws k v).2 := by
  unfold PutState
  cases L.putErr k v with
  | some e => exact h
  | none => exact indexEmpty_put ws k v h hk

theorem indexEmpty_initLedger_loop (J : Codec) (L : Ledger) (ts : List Transaction) :
    ∀ ws, (∀ t ∈ ts, isLocationIndexKey t.TransactionID = false) → IndexEmpty ws →
      IndexEmpty (InitLedger.loop J L ts ws).2 := by
  induction ts with
  | nil => intro ws _ h; exact h
  | cons t rest ih =>
    intro ws hts h
    unfold InitLedger.loop
    cases J.Marshal t with
    | error e => exact h
    | ok b =>
      have hp := indexEmpty_putState L ws t.TransactionID b h (hts t (List.mem_cons_self _ _))
      simp only
      cases hput : PutState L ws t.TransactionID b with
      | mk e ws' =>
        rw [hput] at hp
        cases e with
        | some err => exact hp
        | none => exact ih ws' (fun t' ht' => hts t' (List.mem_cons_of_mem _ ht')) hp

theorem indexEmpty_run (J : Codec) (L : Ledger) (ws : WorldState) (c : Call) (hc : c.offIndex)
    (h : IndexEmpty ws) : IndexEmpty (c.run J L ws).2 := by
  cases c with
  | initLedger =>
    refine indexEmpty_initLedger_loop J L seedTransactions ws ?_ h
    intro t ht
    simp only [seedTransactions, List.mem_cons, List.mem_singleton, List.not_mem_nil,
      or_false] at ht
    rcases ht with rfl | rfl | rfl | rfl <;> decide
  | create id a lo re se st ti tp ty =>
    show IndexEmpty (CreateTransaction J L ws id a lo re se st ti tp ty).2
    unfold CreateTransaction
    cases TransactionExists L ws id with
    | error e => exact h
    | ok ex =>
      cases ex with
      | true => exact h
      | false =>
        simp only
        cases J.Marshal _ with
        | error e => exact h
        | ok b => exact indexEmpty_putState L ws id b h hc
  | update id a lo re se st ti tp ty =>
    show IndexEmpty (UpdateTransaction J L ws id a lo re se st ti tp ty).2
    unfold UpdateTransaction
    cases TransactionExists L ws id with
    | error e => exact h
    | ok ex =>
      cases ex with
      | false => exact h
      | true =>
        simp only
        cases J.Marshal _ with
        | error e => exact h
        | ok b => exact indexEmpty_putState L ws id b h hc
  | delete id =>
    show IndexEmpty (DeleteTransaction L ws id).2
    unfold DeleteTransaction
    cases TransactionExists L ws id with
    | error e => exact h
    | ok ex =>
      cases ex with
      | false => exact h
      | true =>
        simp only [DelState]
        cases L.delErr id with
        | some e => exact h
        | none => exact indexEmpty_del ws id h

theorem indexEmpty_of_reachable (J : Codec) (ws : WorldState)
    (h : Reachable J Call.offIndex ws) : IndexEmpty ws := by
  induction h with
  | empty => intro k hk; simp [WorldState.empty, keysOf] at hk
  | step L c ws hc _ ih => exact indexEmpty_run J L ws c hc ih

/-! ## Further lemmas on the world state and on scans -/

theorem eraseKey_of_absent (k : String) (l : List (String × Bytes)) (h : k ∉ keysOf l) :
    eraseKey k l = l := by
  induction l with
  | nil => rfl
  | cons hd tl ih =>
    obtain ⟨k', v'⟩ := hd
    have hk : k ≠ k' ∧ k ∉ keysOf tl := by simpa [keysOf, not_or] using h
    simp only [eraseKey, hk.1, if_false]
    rw [ih hk.2]

theorem eraseKey_insertKey_of_absent (k : String) (v : Bytes) (l : List (String × Bytes))
    (h : k ∉ keysOf l) : eraseKey k (insertKey k v l) = l := by
  induction l with
  | nil => simp [insertKey, eraseKey]
  | cons hd tl ih =>
    obtain ⟨k', v'⟩ := hd
    have hk : k ≠ k' ∧ k ∉ keysOf tl := by simpa [keysOf, not_or] using h
    unfold insertKey
    split_ifs with h1 h2
    · simp only [eraseKey, if_true]
      exact eraseKey_of_absent k _ h
    · exact absurd h2 hk.1
    · simp only [eraseKey, hk.1, if_false]
      rw [ih hk.2]

theorem WorldState.del_put_of_absent (ws : WorldState) (k : String) (v : Bytes)
    (h : ws.get k = none) : (ws.put k v).del k = ws :=
  WorldState.ext_entries
    (eraseKey_insertKey_of_absent k v ws.entries ((lookupKey_eq_none_iff k ws.entries).mp h))

theorem collect_error_of_bad (J : Codec) (L : Ledger) (kv : String × Bytes) (e : error)
    (hbad : J.Unmarshal kv.2 = Except.error e) (l : List (String × Bytes)) (hmem : kv ∈ l) :
    ∀ acc, ∃ err, collect J L l acc = Except.error err := by
  induction l with
  | nil => cases hmem
  | cons hd tl ih =>
    intro acc
    unfold collect
    cases L.nextErr hd.1 with
    | some err => exact ⟨err, rfl⟩
    | none =>
      cases hu : J.Unmarshal hd.2 with
      | error err => exact ⟨err, rfl⟩
      | ok t =>
        rcases List.mem_cons.mp hmem with rfl | hmem'
        · rw [hbad] at hu; cases hu
        · exact ih hmem' _

theorem lookupKey_head_tail_none (k : String) (v : Bytes) (tl : List (String × Bytes))
    (hs : (keysOf ((k, v) :: tl)).Pairwise keyLt) : lookupKey k tl = none := by
  have hs' : (k :: keysOf tl).Pairwise keyLt := hs
  rw [List.pairwise_cons] at hs'
  rw [lookupKey_eq_none_iff]
  intro hmem
  exact keyLt_irrefl k (hs'.1 k hmem)

theorem mem_keysOf_of_lookupKey (k : String) (v : Bytes) (l : List (String × Bytes))
    (h : lookupKey k l = some v) : k ∈ keysOf l := by
  by_contra hn
  rw [(lookupKey_eq_none_iff k l).mpr hn] at h
  cases h

/-- Two key-ordered lists of entries with the same value under every key are equal. -/
theorem entries_ext (l1 : List (String × Bytes)) :
    ∀ (l2 : List (String × Bytes)), (keysOf l1).Pairwise keyLt → (keysOf l2).Pairwise keyLt →
      (∀ k, lookupKey k l1 = lookupKey k l2) → l1 = l2 := by
  induction l1 with
  | nil =>
    intro l2 _ _ h
    cases l2 with
    | nil => rfl
    | cons hd tl =>
      have := h hd.1
      simp [lookupKey] at this
  | cons hd1 t1 ih =>
    intro l2 hs1 hs2 h
    obtain ⟨k1, v1⟩ := hd1
    cases l2 with
    | nil =>
      have := h k1
      simp [lookupKey] at this
    | cons hd2 t2 =>
      obtain ⟨k2, v2⟩ := hd2
      have hs1' : (k1 :: keysOf t1).Pairwise keyLt := hs1
      have hs2' : (k2 :: keysOf t2).Pairwise keyLt := hs2
      rw [List.pairwise_cons] at hs1' hs2'
      have hk : k1 = k2 := by
        by_contra hne
        have h1 := h k1
        have h2 := h k2
        simp only [lookupKey, if_true, hne, if_false, Ne.symm hne] at h1 h2
        have hlt21 : keyLt k2 k1 := hs2'.1 k1 (mem_keysOf_of_lookupKey k1 v1 t2 h1.symm)
        have hlt12 : keyLt k1 k2 := hs1'.1 k2 (mem_keysOf_of_lookupKey k2 v2 t1 h2)
        exact keyLt_irrefl k1 (keyLt_trans hlt12 hlt21)
      subst hk
      have hv : v1 = v2 := by
        have h1 := h k1
        simpa [lookupKey] using h1
      subst hv
      have htl : t1 = t2 := by
        apply ih t2 hs1'.2 hs2'.2
        intro k
        by_cases hkk : k = k1
        · subst hkk
          rw [lookupKey_head_tail_none k v1 t1 hs1, lookupKey_head_tail_none k v1 t2 hs2]
        · have hk' := h k
          simpa [lookupKey, hkk] using hk'
      rw [htl]

/-- Two world states with the same value under every key are equal. -/
theorem WorldState.ext_get {a b : WorldState} (h : ∀ k, a.get k = b.get k) : a = b :=
  WorldState.ext_entries (entries_ext a.entries b.entries a.sorted b.sorted h)

theorem WorldState.get_put (ws : WorldState) (k x : String) (v : Bytes) :
    (ws.put k v).get x = if x = k then some v else ws.get x := by
  split_ifs with h
  · subst h; exact WorldState.get_put_self ws x v
  · exact WorldState.get_put_ne ws k x v h

/-- `InitLedger` on a ledger that does not fault, with a serializer that marshals the four
seed records: four puts. -/
theorem initLedger_eq_puts (J : Codec) (L : Ledger) (hL : L.NoFault) (b1 b2 b3 b4 : Bytes)
    (hm1 : J.Marshal seed1 = Except.ok b1) (hm2 : J.Marshal seed2 = Except.ok b2)
    (hm3 : J.Marshal seed3 = Except.ok b3) (hm4 : J.Marshal seed4 = Except.ok b4)
    (ws : WorldState) :
    InitLedger J L ws = (none, (((ws.put "1" b1).put "2" b2).put "3" b3).put "4" b4) := by
  have hid1 : seed1.TransactionID = "1" := rfl
  have hid2 : seed2.TransactionID = "2" := rfl
  have hid3 : seed3.TransactionID = "3" := rfl
  have hid4 : seed4.TransactionID = "4" := rfl
  simp [InitLedger, InitLedger.loop, seedTransactions, hm1, hm2, hm3, hm4, PutState, hL.put,
    hid1, hid2, hid3, hid4]

/-! ## Lemmas on the concrete serializer -/

theorem wire.getString_putString (s : String) (rest : Bytes) :
    wire.getString (wire.putString s ++ rest) = some (s, rest) := by
  have hlen : (s.data.map Char.toNat).length = s.data.length := by simp
  have hnot : ¬ (s.data.map Char.toNat ++ rest).length < s.data.length := by
    simp
  have htake : (s.data.map Char.toNat ++ rest).take s.data.length = s.data.map Char.toNat :=
    List.take_left' hlen
  have hdrop : (s.data.map Char.toNat ++ rest).drop s.data.length = rest :=
    List.drop_left' hlen
  show wire.getString (s.data.length :: (s.data.map Char.toNat ++ rest)) = some (s, rest)
  simp only [wire.getString, hnot, if_false, htake, hdrop, List.map_map]
  have hid : (Char.ofNat ∘ Char.toNat) = id := by
    funext c; simp
  rw [hid, List.map_id]

theorem wire.getFloat_putFloat (f : float64) (bs : Bytes) (h : wire.putFloat f = some bs)
    (rest : Bytes) : wire.getFloat (bs ++ rest) = some (f, rest) := by
  cases f with
  | finite neg m e =>
    simp only [wire.putFloat, Option.some.injEq] at h
    subst h
    simp only [List.cons_append, List.nil_append, wire.getFloat]
    have hneg : decide ((if neg = true then 1 else 0) = 1) = neg := by cases neg <;> rfl
    have hexp : (if (if e < 0 then 1 else 0) = 1 then - ((e.natAbs : Nat) : Int)
        else ((e.natAbs : Nat) : Int)) = e := by
      by_cases he : e < 0
      · simp only [he, if_true]; omega
      · simp only [he, if_false]
        have : ¬ ((0 : Nat) = 1) := by decide
        simp only [this, if_false]; omega
    rw [hneg, hexp]
  | inf neg => simp [wire.putFloat] at h
  | nan => simp [wire.putFloat] at h

theorem wire.getPurchase_putPurchase (p : TransactionPurchase) (bs : Bytes)
    (h : wire.putPurchase p = some bs) (rest : Bytes) :
    wire.getPurchase (bs ++ rest) = some (p, rest) := by
  obtain ⟨a, b, cat, c, d, name, e, f, g⟩ := p
  simp only [wire.putPurchase, Option.bind_eq_bind, Option.bind_eq_some, Option.pure_def,
    Option.some.injEq] at h
  obtain ⟨ba, ha, bb, hb, bc, hc, bd, hd, be, he, bf, hf, bg, hg, rfl⟩ := h
  simp only [wire.getPurchase, List.append_assoc, Option.bind_eq_bind, Option.pure_def,
    wire.getFloat_putFloat _ _ ha, wire.getFloat_putFloat _ _ hb, wire.getFloat_putFloat _ _ hc,
    wire.getFloat_putFloat _ _ hd, wire.getFloat_putFloat _ _ he, wire.getFloat_putFloat _ _ hf,
    wire.getFloat_putFloat _ _ hg, wire.getString_putString, Option.some_bind]

theorem wireCodec_faithful (t : Transaction) (bs : Bytes)
    (h : wireCodec.Marshal t = Except.ok bs) : wireCodec.Unmarshal bs = Except.ok t := by
  obtain ⟨a, loc, rcv, snd, st, ts, id, p, ty⟩ := t
  simp only [wireCodec, wire.Marshal] at h
  split at h
  · rename_i ba bp ha hp
    simp only [Except.ok.injEq] at h
    subst h
    have hp' := wire.getPurchase_putPurchase _ _ hp
    have ha' := wire.getFloat_putFloat _ _ ha
    simp only at ha ha' hp hp'
    simp only [wireCodec, wire.Unmarshal, List.append_assoc, Option.bind_eq_bind,
      Option.pure_def, ha', hp', wire.getString_putString, Option.some_bind]
    have := wire.getString_putString ty []
    simp only [List.append_nil] at this
    simp [this]
  · cases h

theorem wire.unmarshal_error (bs : Bytes) (e : error)
    (h : wire.Unmarshal bs = Except.error e) : e = "unexpected end of input" := by
  unfold wire.Unmarshal at h
  simp only at h
  split at h
  · cases h
  · cases h; rfl

/-! ## Lemmas on the key of a stored record -/

theorem mem_insertKey (k : String) (v : Bytes) (l : List (String × Bytes))
    (kv : String × Bytes) (h : kv ∈ insertKey k v l) : kv = (k, v) ∨ kv ∈ l := by
  induction l with
  | nil => simpa [insertKey] using h
  | cons hd tl ih =>
    obtain ⟨k', v'⟩ := hd
    unfold insertKey at h
    split_ifs at h with h1 h2
    · rcases List.mem_cons.mp h with h | h
      · exact Or.inl h
      · exact Or.inr h
    · rcases List.mem_cons.mp h with h | h
      · exact Or.inl h
      · exact Or.inr (List.mem_cons_of_mem _ h)
    · rcases List.mem_cons.mp h with h | h
      · exact Or.inr (h ▸ List.mem_cons_self _ _)
      · rcases ih h with h | h
        · exact Or.inl h
        · exact Or.inr (List.mem_cons_of_mem _ h)

theorem mem_eraseKey (k : String) (l : List (String × Bytes)) (kv : String × Bytes)
    (h : kv ∈ eraseKey k l) : kv ∈ l := by
  induction l with
  | nil => simp [eraseKey] at h
  | cons hd tl ih =>
    obtain ⟨k', v'⟩ := hd
    unfold eraseKey at h
    split_ifs at h with h1
    · exact List.mem_cons_of_mem _ (ih h)
    · rcases List.mem_cons.mp h with h | h
      · exact h ▸ List.mem_cons_self _ _
      · exact List.mem_cons_of_mem _ (ih h)

theorem stamped_putState (J : Codec) (L : Ledger) (ws : WorldState) (t : Transaction)
    (b : Bytes) (h : Stamped J ws) (hm : J.Marshal t = Except.ok b) :
    Stamped J (PutState L ws t.TransactionID b).2 := by
  unfold PutState
  cases L.putErr t.TransactionID b with
  | some e => exact h
  | none =>
    intro kv hkv
    rcases mem_insertKey _ _ _ kv hkv with rfl | hmem
    · exact ⟨t, hm, rfl⟩
    · exact h kv hmem

theorem stamped_initLedger_loop (J : Codec) (L : Ledger) (ts : List Transaction) :
    ∀ ws, Stamped J ws → Stamped J (InitLedger.loop J L ts ws).2 := by
  induction ts with
  | nil => intro ws h; exact h
  | cons t rest ih =>
    intro ws h
    unfold InitLedger.loop
    cases hm : J.Marshal t with
    | error e => exact h
    | ok b =>
      have hp := stamped_putState J L ws t b h hm
      simp only
      cases hput : PutState L ws t.TransactionID b with
      | mk e ws' =>
        rw [hput] at hp
        cases e with
        | some err => exact hp
        | none => exact ih ws' hp

theorem stamped_run (J : Codec) (L : Ledger) (ws : WorldState) (c : Call)
    (h : Stamped J ws) : Stamped J (c.run J L ws).2 := by
  cases c with
  | initLedger => exact stamped_initLedger_loop J L seedTransactions ws h
  | create id a lo re se st ti tp ty =>
    show Stamped J (CreateTransaction J L ws id a lo re se st ti tp ty).2
    unfold CreateTransaction
    cases TransactionExists L ws id with
    | error e => exact h
    | ok ex =>
      cases ex with
      | true => exact h
      | false =>
        simp only
        cases hm : J.Marshal _ with
        | error e => exact h
        | ok b => exact stamped_putState J L ws _ b h hm
  | update id a lo re se st ti tp ty =>
    show Stamped J (UpdateTransaction J L ws id a lo re se st ti tp ty).2
    unfold UpdateTransaction
    cases TransactionExists L ws id with
    | error e => exact h
    | ok ex =>
      cases ex with
      | false => exact h
      | true =>
        simp only
        cases hm : J.Marshal _ with
        | error e => exact h
        | ok b => exact stamped_putState J L ws _ b h hm
  | delete id =>
    show Stamped J (DeleteTransaction L ws id).2
    unfold DeleteTransaction
    cases TransactionExists L ws id with
    | error e => exact h
    | ok ex =>
      cases ex with
      | false => exact h
      | true =>
        simp only [DelState]
        cases L.delErr id with
        | some e => exact h
        | none => exact fun kv hkv => h kv (mem_eraseKey id ws.entries kv hkv)

theorem stamped_of_reachable (J : Codec) (allowed : Call → Prop) (ws : WorldState)
    (h : Reachable J allowed ws) : Stamped J ws := by
  induction h with
  | empty => intro kv hkv; simp [WorldState.empty] at hkv
  | step L c ws _ _ ih => exact stamped_run J L ws c ih

/-! ## Lemmas on the location scan -/

/-- What `ReadTransactionByLocation(loc)` returns: deserializations of values stored under
keys that begin with the composite key of the namespace "location~name" with leading part
`loc`. -/
theorem byLocation_returns_indexed_values (J : Codec) (L : Ledger) (ws : WorldState)
    (loc : String) (rs : List Transaction)
    (h : ReadTransactionByLocation J L ws loc = Except.ok rs) :
    ∀ r ∈ rs, ∃ kv ∈ ws.entries,
      (createCompositeKey "location~name" [loc]).data.isPrefixOf kv.1.data = true ∧
        J.Unmarshal kv.2 = Except.ok r := by
  intro r hr
  unfold ReadTransactionByLocation GetStateByPartialCompositeKey at h
  cases hc : L.compositeErr "location~name" [loc] with
  | some e => rw [hc] at h; cases h
  | none =>
    rw [hc] at h
    rcases collect_sound J L _ [] rs h r hr with hnil | ⟨kv, hmem, hu⟩
    · cases hnil
    · rw [List.mem_filter] at hmem
      exact ⟨kv, hmem.1, hmem.2, hu⟩

/-- In a world state reached by calls whose `TransactionID` arguments are not keys of the
namespace "location~name", every transaction that `ReadTransactionByLocation(loc)` returns
has `Location` equal to `loc`: the only way past the location filter is a `TransactionID`
that is itself a composite key. -/
theorem byLocation_location_off_namespace (J : Codec) (L : Ledger) (ws : WorldState)
    (hreach : Reachable J Call.offIndex ws) (loc : String) (rs : List Transaction)
    (h : ReadTransactionByLocation J L ws loc = Except.ok rs) :
    ∀ r ∈ rs, r.Location = loc := by
  intro r hr
  obtain ⟨kv, hmem, hpre, _⟩ := byLocation_returns_indexed_values J L ws loc rs h r hr
  have hk : kv.1 ∈ keysOf ws.entries := List.mem_map.mpr ⟨kv, hmem, rfl⟩
  have hoff := indexEmpty_of_reachable J ws hreach kv.1 hk
  rw [not_compositePrefix_of_offIndex [loc] kv.1 hoff] at hpre
  cases hpre

/-! ## Claims -/

/-- C1 (round trip). For every transaction `t` that is valid for the serializer, every world
state in which the key `t.TransactionID` is absent, and a ledger that does not fault,
`CreateTransaction` with the fields of `t` succeeds and a following
`ReadTransaction(t.TransactionID)` succeeds and returns a transaction equal to `t` in every
field, the nested `TransactionPurchase` included. -/
theorem create_then_read_roundtrip (J : Codec) (L : Ledger) (ws : WorldState) (t : Transaction)
    (hvalid : J.RoundTrip t) (habsent : ws.get t.TransactionID = none) (hL : L.NoFault) :
    (createOf J L ws t).1 = none ∧
      ReadTransaction J L (createOf J L ws t).2 t.TransactionID = Except.ok t := by
  obtain ⟨b, hm, hu⟩ := hvalid
  have hc : createOf J L ws t = (none, ws.put t.TransactionID b) := by
    rw [createOf_eq, transactionExists_of_getErr_none L ws _ (hL.get _), habsent]
    simp [hm, PutState, hL.put]
  rw [hc]
  exact ⟨rfl, readTransaction_of_stored J L _ _ b t (hL.get _) (WorldState.get_put_self ws _ b) hu⟩

theorem create_then_read_roundtrip_witness :
    wireCodec.RoundTrip sampleTx ∧ WorldState.empty.get sampleTx.TransactionID = none ∧
      Ledger.healthy.NoFault ∧
      (createOf wireCodec Ledger.healthy WorldState.empty sampleTx).1 = none ∧
      ReadTransaction wireCodec Ledger.healthy
        (createOf wireCodec Ledger.healthy WorldState.empty sampleTx).2 sampleTx.TransactionID =
        Except.ok sampleTx :=
  ⟨⟨_, rfl, rfl⟩, rfl, Ledger.healthy_noFault,
    create_then_read_roundtrip wireCodec Ledger.healthy WorldState.empty sampleTx ⟨_, rfl, rfl⟩ rfl
      Ledger.healthy_noFault⟩

/-- C2 (duplicate create is rejected). For every transaction `t`, every world state and
every ledger, if `CreateTransaction` with the fields of `t` has succeeded, then a second
`CreateTransaction` on that ledger with the same `TransactionID` and any other field values
fails with the
"already exists" error and leaves the world state as the first call left it, and the bytes
stored under that `TransactionID` are the ones the first call wrote (the marshalled `t`). -/
theorem duplicate_create_rejected (J : Codec) (L : Ledger) (ws : WorldState) (t : Transaction)
    (amount : float64) (location reciever sender status timestamp : String)
    (transactionPurchase : TransactionPurchase) (typeOfTransaction : String)
    (hfirst : (createOf J L ws t).1 = none) :
    CreateTransaction J L (createOf J L ws t).2 t.TransactionID amount location reciever sender
        status timestamp transactionPurchase typeOfTransaction =
      (some ("the transaction " ++ t.TransactionID ++ " already exists"), (createOf J L ws t).2) ∧
      ∃ b, J.Marshal t = Except.ok b ∧ (createOf J L ws t).2.get t.TransactionID = some b := by
  obtain ⟨hg, _, b, hm, _, hws⟩ := createOf_success J L ws t hfirst
  have hget : (createOf J L ws t).2.get t.TransactionID = some b := by
    rw [hws]; exact WorldState.get_put_self ws _ b
  refine ⟨?_, b, hm, hget⟩
  unfold CreateTransaction
  rw [transactionExists_of_getErr_none L _ _ hg, hget]
  rfl

theorem duplicate_create_rejected_witness :
    (createOf wireCodec Ledger.healthy WorldState.empty sampleTx).1 = none ∧
      CreateTransaction wireCodec Ledger.healthy
          (createOf wireCodec Ledger.healthy WorldState.empty sampleTx).2
          sampleTx.TransactionID 1 "A" "B" "C" "D" "E" sampleTx.TransactionPurchase "F" =
        (some ("the transaction " ++ sampleTx.TransactionID ++ " already exists"),
          (createOf wireCodec Ledger.healthy WorldState.empty sampleTx).2) ∧
      ∃ b, wireCodec.Marshal sampleTx = Except.ok b ∧
        (createOf wireCodec Ledger.healthy WorldState.empty sampleTx).2.get
          sampleTx.TransactionID = some b :=
  ⟨rfl, duplicate_create_rejected wireCodec Ledger.healthy WorldState.empty sampleTx 1 "A" "B"
    "C" "D" "E" sampleTx.TransactionPurchase "F" rfl⟩

/-- C3 (absent ids). For every world state, every id that has no value in it and a ledger
that does not fault, `ReadTransaction(id)`, `UpdateTransaction(id, ...)` with any field
values, and `DeleteTransaction(id)` each fail with the "does not exist" error, and
`TransactionExists(id)` returns false with no error. -/
theorem absent_id_not_found (J : Codec) (L : Ledger) (ws : WorldState) (id : String)
    (amount : float64) (location reciever sender status timestamp : String)
    (transactionPurchase : TransactionPurchase) (typeOfTransaction : String)
    (habsent : ws.get id = none) (hL : L.NoFault) :
    ReadTransaction J L ws id = Except.error ("the transaction " ++ id ++ " does not exist") ∧
      (UpdateTransaction J L ws id amount location reciever sender status timestamp
          transactionPurchase typeOfTransaction).1 =
        some ("the transaction " ++ id ++ " does not exist") ∧
      (DeleteTransaction L ws id).1 = some ("the transaction " ++ id ++ " does not exist") ∧
      TransactionExists L ws id = Except.ok false := by
  have he : TransactionExists L ws id = Except.ok false := by
    rw [transactionExists_of_getErr_none L ws id (hL.get id), habsent]; rfl
  refine ⟨readTransaction_of_absent J L ws id (hL.get id) habsent, ?_, ?_, he⟩
  · unfold UpdateTransaction; rw [he]
  · unfold DeleteTransaction; rw [he]

theorem absent_id_not_found_witness :
    WorldState.empty.get "9" = none ∧ Ledger.healthy.NoFault ∧
      ReadTransaction wireCodec Ledger.healthy WorldState.empty "9" =
        Except.error ("the transaction " ++ "9" ++ " does not exist") ∧
      (UpdateTransaction wireCodec Ledger.healthy WorldState.empty "9" 1 "A" "B" "C" "D" "E"
          sampleTx.TransactionPurchase "F").1 =
        some ("the transaction " ++ "9" ++ " does not exist") ∧
      (DeleteTransaction Ledger.healthy WorldState.empty "9").1 =
        some ("the transaction " ++ "9" ++ " does not exist") ∧
      TransactionExists Ledger.healthy WorldState.empty "9" = Except.ok false :=
  ⟨rfl, Ledger.healthy_noFault,
    absent_id_not_found wireCodec Ledger.healthy WorldState.empty "9" 1 "A" "B" "C" "D" "E"
      sampleTx.TransactionPurchase "F" rfl Ledger.healthy_noFault⟩

/-- C4 (update is a full replace). For every world state in which `id` is present, every
transaction `t'` with `t'.TransactionID = id` that is valid for the serializer, and a ledger
that does not fault, `UpdateTransaction` with the fields of `t'` succeeds, a following
`ReadTransaction(id)` returns exactly `t'`, and the world state after the call is the one
before it with the marshalled `t'` put under `id`: what is stored is determined by the
arguments alone, no field of the bytes stored before survives. -/
theorem update_full_replace (J : Codec) (L : Ledger) (ws : WorldState) (t' : Transaction)
    (old : Bytes) (hpresent : ws.get t'.TransactionID = some old) (hvalid : J.RoundTrip t')
    (hL : L.NoFault) :
    (updateOf J L ws t').1 = none ∧
      ReadTransaction J L (updateOf J L ws t').2 t'.TransactionID = Except.ok t' ∧
      ∃ b, J.Marshal t' = Except.ok b ∧ (updateOf J L ws t').2 = ws.put t'.TransactionID b := by
  obtain ⟨b, hm, hu⟩ := hvalid
  have hc : updateOf J L ws t' = (none, ws.put t'.TransactionID b) := by
    rw [updateOf_eq, transactionExists_of_getErr_none L ws _ (hL.get _), hpresent]
    simp [hm, PutState, hL.put]
  rw [hc]
  exact ⟨rfl,
    readTransaction_of_stored J L _ _ b t' (hL.get _) (WorldState.get_put_self ws _ b) hu,
    b, hm, rfl⟩

theorem update_full_replace_witness :
    ReadTransaction wireCodec Ledger.healthy sampleStore "7" = Except.ok sampleTx ∧
      (updateOf wireCodec Ledger.healthy sampleStore sampleTxComplete).1 = none ∧
      ReadTransaction wireCodec Ledger.healthy
        (updateOf wireCodec Ledger.healthy sampleStore sampleTxComplete).2 "7" =
        Except.ok sampleTxComplete ∧
      ∃ b, wireCodec.Marshal sampleTxComplete = Except.ok b ∧
        (updateOf wireCodec Ledger.healthy sampleStore sampleTxComplete).2 =
          sampleStore.put "7" b :=
  ⟨rfl, update_full_replace wireCodec Ledger.healthy sampleStore sampleTxComplete _ rfl
    ⟨_, rfl, rfl⟩ Ledger.healthy_noFault⟩

/-- C5 (delete removes the record). For every world state in which `id` is present and a
ledger that does not fault, `DeleteTransaction(id)` succeeds, and afterwards
`TransactionExists(id)` returns false and `ReadTransaction(id)` fails with the "does not
exist" error. -/
theorem delete_removes_record (J : Codec) (L : Ledger) (ws : WorldState) (id : String)
    (old : Bytes) (hpresent : ws.get id = some old) (hL : L.NoFault) :
    (DeleteTransaction L ws id).1 = none ∧
      TransactionExists L (DeleteTransaction L ws id).2 id = Except.ok false ∧
      ReadTransaction J L (DeleteTransaction L ws id).2 id =
        Except.error ("the transaction " ++ id ++ " does not exist") := by
  have hd : DeleteTransaction L ws id = (none, ws.del id) := by
    unfold DeleteTransaction
    rw [transactionExists_of_getErr_none L ws id (hL.get id), hpresent]
    simp [DelState, hL.del]
  rw [hd]
  refine ⟨rfl, ?_, readTransaction_of_absent J L _ id (hL.get id) (WorldState.get_del_self ws id)⟩
  rw [transactionExists_of_getErr_none L _ id (hL.get id), WorldState.get_del_self]
  rfl

theorem delete_removes_record_witness :
    TransactionExists Ledger.healthy sampleStore "7" = Except.ok true ∧
      (DeleteTransaction Ledger.healthy sampleStore "7").1 = none ∧
      TransactionExists Ledger.healthy (DeleteTransaction Ledger.healthy sampleStore "7").2 "7" =
        Except.ok false ∧
      ReadTransaction wireCodec Ledger.healthy
        (DeleteTransaction Ledger.healthy sampleStore "7").2 "7" =
        Except.error ("the transaction " ++ "7" ++ " does not exist") :=
  ⟨rfl, delete_removes_record wireCodec Ledger.healthy sampleStore "7" _ rfl
    Ledger.healthy_noFault⟩

/-- C6 (atomicity on failure). For every serializer, ledger, world state and argument list,
whenever `CreateTransaction`, `UpdateTransaction` or `DeleteTransaction` returns an error
(the precondition gate failed, the existence probe faulted, serialization failed, or the
put or delete of the collaborator faulted), the world state after the call is identical to
the world state before it. -/
theorem failed_call_leaves_state (J : Codec) (L : Ledger) (ws : WorldState)
    (transactionID : String) (amount : float64)
    (location reciever sender status timestamp : String)
    (transactionPurchase : TransactionPurchase) (typeOfTransaction : String) :
    ((CreateTransaction J L ws transactionID amount location reciever sender status timestamp
          transactionPurchase typeOfTransaction).1 ≠ none →
        (CreateTransaction J L ws transactionID amount location reciever sender status timestamp
          transactionPurchase typeOfTransaction).2 = ws) ∧
      ((UpdateTransaction J L ws transactionID amount location reciever sender status timestamp
          transactionPurchase typeOfTransaction).1 ≠ none →
        (UpdateTransaction J L ws transactionID amount location reciever sender status timestamp
          transactionPurchase typeOfTransaction).2 = ws) ∧
      ((DeleteTransaction L ws transactionID).1 ≠ none →
        (DeleteTransaction L ws transactionID).2 = ws) := by
  refine ⟨?_, ?_, ?_⟩
  · unfold CreateTransaction
    cases TransactionExists L ws transactionID with
    | error e => simp
    | ok ex =>
      cases ex with
      | true => simp
      | false =>
        simp only
        cases J.Marshal _ with
        | error e => simp
        | ok b =>
          simp only [PutState]
          cases L.putErr transactionID b <;> simp
  · unfold UpdateTransaction
    cases TransactionExists L ws transactionID with
    | error e => simp
    | ok ex =>
      cases ex with
      | false => simp
      | true =>
        simp only
        cases J.Marshal _ with
        | error e => simp
        | ok b =>
          simp only [PutState]
          cases L.putErr transactionID b <;> simp
  · unfold DeleteTransaction
    cases TransactionExists L ws transactionID with
    | error e => simp
    | ok ex =>
      cases ex with
      | false => simp
      | true =>
        simp only [DelState]
        cases L.delErr transactionID <;> simp

theorem failed_call_leaves_state_witness :
    ((createOf wireCodec Ledger.healthy sampleStore sampleTx).1 ≠ none ∧
        (createOf wireCodec Ledger.healthy sampleStore sampleTx).2 = sampleStore) ∧
      ((createOf wireCodec Ledger.healthy WorldState.empty sampleTxNaN).1 ≠ none ∧
        (createOf wireCodec Ledger.healthy WorldState.empty sampleTxNaN).2 = WorldState.empty) ∧
      ((createOf wireCodec Ledger.readOnly WorldState.empty sampleTx).1 ≠ none ∧
        (createOf wireCodec Ledger.readOnly WorldState.empty sampleTx).2 = WorldState.empty) ∧
      ((updateOf wireCodec Ledger.healthy sampleStore craftedTx).1 ≠ none ∧
        (updateOf wireCodec Ledger.healthy sampleStore craftedTx).2 = sampleStore) ∧
      ((updateOf wireCodec Ledger.readOnly sampleStore sampleTxComplete).1 ≠ none ∧
        (updateOf wireCodec Ledger.readOnly sampleStore sampleTxComplete).2 = sampleStore) ∧
      ((DeleteTransaction Ledger.down sampleStore "7").1 ≠ none ∧
        (DeleteTransaction Ledger.down sampleStore "7").2 = sampleStore) ∧
      ((DeleteTransaction Ledger.readOnly sampleStore "7").1 ≠ none ∧
        (DeleteTransaction Ledger.readOnly sampleStore "7").2 = sampleStore) :=
  ⟨⟨by decide, (failed_call_leaves_state wireCodec Ledger.healthy sampleStore _ _ _ _ _ _ _ _ _).1
      (by decide)⟩,
    ⟨by decide,
      (failed_call_leaves_state wireCodec Ledger.healthy WorldState.empty _ _ _ _ _ _ _ _ _).1
        (by decide)⟩,
    ⟨by decide,
      (failed_call_leaves_state wireCodec Ledger.readOnly WorldState.empty _ _ _ _ _ _ _ _ _).1
        (by decide)⟩,
    ⟨by decide,
      (failed_call_leaves_state wireCodec Ledger.healthy sampleStore _ _ _ _ _ _ _ _ _).2.1
        (by decide)⟩,
    ⟨by decide,
      (failed_call_leaves_state wireCodec Ledger.readOnly sampleStore _ _ _ _ _ _ _ _ _).2.1
        (by decide)⟩,
    ⟨by decide,
      (failed_call_leaves_state wireCodec Ledger.down sampleStore "7" 0 "" "" "" "" ""
        sampleTx.TransactionPurchase "").2.2 (by decide)⟩,
    ⟨by decide,
      (failed_call_leaves_state wireCodec Ledger.readOnly sampleStore "7" 0 "" "" "" "" ""
        sampleTx.TransactionPurchase "").2.2 (by decide)⟩⟩

/-- C7 (full enumeration). For every `N` and every `N` transactions that are valid for the
serializer and have pairwise distinct `TransactionID`s, on a ledger that does not fault:
creating them one after the other into the empty world state succeeds, and then
`GetAllTransactions` succeeds and returns exactly `N` records, the created ones up to order,
one per stored key and in the order of the keys (strictly increasing, lexicographic), each
being the transaction whose marshalled bytes are stored under its `TransactionID`. For
`N = 0` the result is empty. `GetAllTransactions` is a function of the store and does not
write to it, so a second call against the unchanged store returns the same sequence. -/
theorem getAll_after_creates (J : Codec) (L : Ledger) (ts : List Transaction)
    (hvalid : ∀ t ∈ ts, J.RoundTrip t)
    (hdistinct : (ts.map (fun t => t.TransactionID)).Nodup) (hL : L.NoFault) :
    (createAll J L ts WorldState.empty).1 = none ∧
      ∃ rs, GetAllTransactions J L (createAll J L ts WorldState.empty).2 = Except.ok rs ∧
        rs.length = ts.length ∧ rs.Perm ts ∧
        rs.map (fun t => t.TransactionID) =
          keysOf (createAll J L ts WorldState.empty).2.entries ∧
        (rs.map (fun t => t.TransactionID)).Pairwise keyLt ∧
        ∀ r ∈ rs, ∃ b, J.Marshal r = Except.ok b ∧
          (createAll J L ts WorldState.empty).2.get r.TransactionID = some b := by
  obtain ⟨hnone, rs, hf, hp⟩ := createAll_holds J L hL ts WorldState.empty []
    List.Forall₂.nil hvalid hdistinct (fun _ _ => rfl)
  have hp' : rs.Perm ts := by simpa using hp
  have hkeys := keysOf_of_holds J _ rs hf
  refine ⟨hnone, rs, ?_, hp'.length_eq, hp', hkeys, ?_, ?_⟩
  · unfold GetAllTransactions GetStateByRange
    rw [hL.range]
    simp only [filter_inRange_all]
    simpa using collect_of_holds J L hL.next _ rs hf []
  · rw [hkeys]
    exact (createAll J L ts WorldState.empty).2.sorted
  · intro r hr
    obtain ⟨kv, hkv, hh⟩ := holds_of_mem J _ rs hf r hr
    refine ⟨kv.2, hh.2.1, ?_⟩
    rw [← hh.1]
    exact lookupKey_of_mem _ (createAll J L ts WorldState.empty).2.sorted kv.1 kv.2 hkv

set_option maxRecDepth 8000 in
theorem getAll_after_creates_witness :
    (createAll wireCodec Ledger.healthy [sampleTx, seed2, seed1] WorldState.empty).1 = none ∧
      GetAllTransactions wireCodec Ledger.healthy
        (createAll wireCodec Ledger.healthy [sampleTx, seed2, seed1] WorldState.empty).2 =
        Except.ok [seed1, seed2, sampleTx] ∧
      ∃ rs, GetAllTransactions wireCodec Ledger.healthy
          (createAll wireCodec Ledger.healthy [sampleTx, seed2, seed1] WorldState.empty).2 =
          Except.ok rs ∧
        rs.length = [sampleTx, seed2, seed1].length ∧ rs.Perm [sampleTx, seed2, seed1] ∧
        rs.map (fun t => t.TransactionID) =
          keysOf (createAll wireCodec Ledger.healthy [sampleTx, seed2, seed1]
            WorldState.empty).2.entries ∧
        (rs.map (fun t => t.TransactionID)).Pairwise keyLt ∧
        ∀ r ∈ rs, ∃ b, wireCodec.Marshal r = Except.ok b ∧
          (createAll wireCodec Ledger.healthy [sampleTx, seed2, seed1]
            WorldState.empty).2.get r.TransactionID = some b :=
  ⟨rfl, rfl,
    (getAll_after_creates wireCodec Ledger.healthy [sampleTx, seed2, seed1]
      (by
        intro t ht
        simp only [List.mem_cons, List.mem_singleton, List.not_mem_nil, or_false] at ht
        rcases ht with rfl | rfl | rfl
        · exact wireCodec_roundTrip_sampleTx
        · exact wireCodec_roundTrip_seeds seed2 (by simp [seedTransactions])
        · exact wireCodec_roundTrip_seeds seed1 (by simp [seedTransactions]))
      (by decide) Ledger.healthy_noFault).2⟩

/-- C8 (end-to-end scenario). On a ledger that does not fault and with a serializer for
which the four seed records are valid: starting from the empty world state, `InitLedger`
succeeds and the store then holds exactly the keys "1", "2", "3", "4";
`TransactionExists("1")` is true; `ReadTransaction("2")` returns a record with `Sender`
"John Jones" and `Amount` 50; `DeleteTransaction("3")` succeeds; `TransactionExists("3")` is
then false; and `GetAllTransactions` returns exactly the three remaining records, those with
ids "1", "2" and "4". -/
theorem end_to_end_scenario (J : Codec) (L : Ledger) (hL : L.NoFault)
    (hvalid : ∀ t ∈ seedTransactions, J.RoundTrip t) :
    (InitLedger J L WorldState.empty).1 = none ∧
      keysOf (InitLedger J L WorldState.empty).2.entries = ["1", "2", "3", "4"] ∧
      TransactionExists L (InitLedger J L WorldState.empty).2 "1" = Except.ok true ∧
      (∃ r, ReadTransaction J L (InitLedger J L WorldState.empty).2 "2" = Except.ok r ∧
        r.Sender = "John Jones" ∧ r.Amount = 50) ∧
      (DeleteTransaction L (InitLedger J L WorldState.empty).2 "3").1 = none ∧
      TransactionExists L (DeleteTransaction L (InitLedger J L WorldState.empty).2 "3").2 "3" =
        Except.ok false ∧
      GetAllTransactions J L (DeleteTransaction L (InitLedger J L WorldState.empty).2 "3").2 =
        Except.ok [seed1, seed2, seed4] := by
  obtain ⟨b1, hm1, hu1⟩ := hvalid seed1 (by simp [seedTransactions])
  obtain ⟨b2, hm2, hu2⟩ := hvalid seed2 (by simp [seedTransactions])
  obtain ⟨b3, hm3, hu3⟩ := hvalid seed3 (by simp [seedTransactions])
  obtain ⟨b4, hm4, hu4⟩ := hvalid seed4 (by simp [seedTransactions])
  have h21 : ¬ keyLt "2" "1" := by decide
  have h31 : ¬ keyLt "3" "1" := by decide
  have h32 : ¬ keyLt "3" "2" := by decide
  have h41 : ¬ keyLt "4" "1" := by decide
  have h42 : ¬ keyLt "4" "2" := by decide
  have h43 : ¬ keyLt "4" "3" := by decide
  have hinit : InitLedger J L WorldState.empty =
      (none, (((WorldState.empty.put "1" b1).put "2" b2).put "3" b3).put "4" b4) := by
    have hid1 : seed1.TransactionID = "1" := rfl
    have hid2 : seed2.TransactionID = "2" := rfl
    have hid3 : seed3.TransactionID = "3" := rfl
    have hid4 : seed4.TransactionID = "4" := rfl
    simp [InitLedger, InitLedger.loop, seedTransactions, hm1, hm2, hm3, hm4, PutState, hL.put,
      hid1, hid2, hid3, hid4]
  have hent : ((((WorldState.empty.put "1" b1).put "2" b2).put "3" b3).put "4" b4).entries =
      [("1", b1), ("2", b2), ("3", b3), ("4", b4)] := by
    simp [WorldState.put, WorldState.empty, insertKey, h21, h31, h32, h41, h42, h43]
  have hdel : DeleteTransaction L (InitLedger J L WorldState.empty).2 "3" =
      (none, (InitLedger J L WorldState.empty).2.del "3") := by
    unfold DeleteTransaction
    rw [transactionExists_of_getErr_none L _ _ (hL.get _)]
    simp [hinit, WorldState.get, hent, lookupKey, DelState, hL.del]
  have hent2 : ((InitLedger J L WorldState.empty).2.del "3").entries =
      [("1", b1), ("2", b2), ("4", b4)] := by
    simp [hinit, WorldState.del, hent, eraseKey]
  refine ⟨by rw [hinit], by rw [hinit]; simp [hent, keysOf], ?_, ⟨seed2, ?_, rfl, rfl⟩,
    by rw [hdel], ?_, ?_⟩
  · rw [transactionExists_of_getErr_none L _ _ (hL.get _)]
    simp [hinit, WorldState.get, hent, lookupKey]
  · exact readTransaction_of_stored J L _ "2" b2 seed2 (hL.get _)
      (by simp [hinit, WorldState.get, hent, lookupKey]) hu2
  · rw [hdel, transactionExists_of_getErr_none L _ _ (hL.get _)]
    simp [WorldState.get, hent2, lookupKey]
  · rw [hdel]
    unfold GetAllTransactions GetStateByRange
    rw [hL.range]
    simp [filter_inRange_all, hent2, collect, hL.next, hu1, hu2, hu4]

theorem end_to_end_scenario_witness :
    (InitLedger wireCodec Ledger.healthy WorldState.empty).1 = none ∧
      keysOf (InitLedger wireCodec Ledger.healthy WorldState.empty).2.entries =
        ["1", "2", "3", "4"] ∧
      TransactionExists Ledger.healthy (InitLedger wireCodec Ledger.healthy WorldState.empty).2
        "1" = Except.ok true ∧
      (∃ r, ReadTransaction wireCodec Ledger.healthy
          (InitLedger wireCodec Ledger.healthy WorldState.empty).2 "2" = Except.ok r ∧
        r.Sender = "John Jones" ∧ r.Amount = 50) ∧
      (DeleteTransaction Ledger.healthy
        (InitLedger wireCodec Ledger.healthy WorldState.empty).2 "3").1 = none ∧
      TransactionExists Ledger.healthy
        (DeleteTransaction Ledger.healthy
          (InitLedger wireCodec Ledger.healthy WorldState.empty).2 "3").2 "3" =
        Except.ok false ∧
      GetAllTransactions wireCodec Ledger.healthy
        (DeleteTransaction Ledger.healthy
          (InitLedger wireCodec Ledger.healthy WorldState.empty).2 "3").2 =
        Except.ok [seed1, seed2, seed4] :=
  end_to_end_scenario wireCodec Ledger.healthy Ledger.healthy_noFault wireCodec_roundTrip_seeds

/-- C9, the claim as stated fails: `CreateTransaction` writes the key equal to the
`TransactionID` it is given, whatever that string is. Called on the empty world state with
the composite key of ("location~name", ["Queens"]) as `TransactionID`, it stores the record
under that key, and `ReadTransactionByLocation("Queens")` on the world state so reached
returns the record instead of an empty result. -/
theorem location_index_nonempty_for_composite_id :
    Reachable wireCodec (fun _ => True)
        (createOf wireCodec Ledger.healthy WorldState.empty indexedTx).2 ∧
      ReadTransactionByLocation wireCodec Ledger.healthy
        (createOf wireCodec Ledger.healthy WorldState.empty indexedTx).2 "Queens" =
        Except.ok [indexedTx] ∧
      ¬ (∀ ws, Reachable wireCodec (fun _ => True) ws → ∀ loc,
          ReadTransactionByLocation wireCodec Ledger.healthy ws loc = Except.ok []) := by
  have hreach : Reachable wireCodec (fun _ => True)
      (createOf wireCodec Ledger.healthy WorldState.empty indexedTx).2 :=
    Reachable.step Ledger.healthy
      (Call.create indexedTx.TransactionID indexedTx.Amount indexedTx.Location
        indexedTx.Reciever indexedTx.Sender indexedTx.Status indexedTx.Timestamp
        indexedTx.TransactionPurchase indexedTx.TypeOfTransaction)
      WorldState.empty trivial Reachable.empty
  have hread : ReadTransactionByLocation wireCodec Ledger.healthy
      (createOf wireCodec Ledger.healthy WorldState.empty indexedTx).2 "Queens" =
      Except.ok [indexedTx] := rfl
  refine ⟨hreach, hread, fun hall => ?_⟩
  have h := hall _ hreach "Queens"
  rw [hread] at h
  cases h

/-- C9 as amended. `InitLedger`, `CreateTransaction` and `UpdateTransaction` write only the
key equal to the `TransactionID`; so in every world state reached from the empty one by any
sequence of `InitLedger` / `CreateTransaction` / `UpdateTransaction` / `DeleteTransaction`
calls whose `TransactionID` arguments are not themselves keys of the composite-key namespace
"location~name" (each call on a ledger of its own, faulting or not), no stored key lies in
that namespace, and for every location `loc`, also the location of a stored record,
`ReadTransactionByLocation(loc)` returns an empty result whenever the composite-key scan
itself does not fault. -/
theorem location_index_empty_off_namespace (J : Codec) (ws : WorldState)
    (hreach : Reachable J Call.offIndex ws) :
    (∀ k ∈ keysOf ws.entries, isLocationIndexKey k = false) ∧
      ∀ (L : Ledger) (loc : String), L.compositeErr "location~name" [loc] = none →
        ReadTransactionByLocation J L ws loc = Except.ok [] := by
  have hs := indexEmpty_of_reachable J ws hreach
  refine ⟨hs, fun L loc hL => ?_⟩
  unfold ReadTransactionByLocation GetStateByPartialCompositeKey
  rw [hL]
  have hnil : ws.entries.filter
      (fun kv => (createCompositeKey "location~name" [loc]).data.isPrefixOf kv.1.data) = [] := by
    apply List.filter_eq_nil_iff.mpr
    intro kv hkv
    have hk : kv.1 ∈ keysOf ws.entries := List.mem_map.mpr ⟨kv, hkv, rfl⟩
    simp [not_compositePrefix_of_offIndex [loc] kv.1 (hs kv.1 hk)]
  simp only [hnil]
  rfl

theorem location_index_empty_off_namespace_witness :
    Reachable wireCodec Call.offIndex sampleStore ∧
      Except.ok <$> sampleStore.get "7" = some (wireCodec.Marshal sampleTx) ∧
      sampleTx.Location = "Queens" ∧
      (∀ k ∈ keysOf sampleStore.entries, isLocationIndexKey k = false) ∧
      Ledger.healthy.compositeErr "location~name" ["Queens"] = none ∧
      ReadTransactionByLocation wireCodec Ledger.healthy sampleStore "Queens" = Except.ok [] :=
  have hreach : Reachable wireCodec Call.offIndex sampleStore :=
    Reachable.step Ledger.healthy
      (Call.create sampleTx.TransactionID sampleTx.Amount sampleTx.Location sampleTx.Reciever
        sampleTx.Sender sampleTx.Status sampleTx.Timestamp sampleTx.TransactionPurchase
        sampleTx.TypeOfTransaction)
      WorldState.empty (show isLocationIndexKey sampleTx.TransactionID = false from rfl)
      Reachable.empty
  ⟨hreach, rfl, rfl, (location_index_empty_off_namespace wireCodec sampleStore hreach).1, rfl,
    (location_index_empty_off_namespace wireCodec sampleStore hreach).2 Ledger.healthy "Queens"
      rfl⟩

/-- C10, the code breaks the claim. `ReadTransactionByLocation` is documented as reading
the transactions "with given location" (source line 132), but its loop (source lines
142-153) appends every value the composite-key scan yields and never reads the `Location`
field. `CreateTransaction` on the empty world state with the composite key of
("location~name", ["Queens"]) as `TransactionID` and "Bronx" as `Location` succeeds, and on
the world state so reached `ReadTransactionByLocation("Queens")` returns that record, whose
`Location` is "Bronx". -/
theorem byLocation_returns_other_location :
    Reachable wireCodec (fun _ => True) craftedStore ∧
      ReadTransactionByLocation wireCodec Ledger.healthy craftedStore "Queens" =
        Except.ok [craftedTx] ∧
      craftedTx.Location = "Bronx" ∧
      ¬ (∀ (ws : WorldState) (loc : String) (rs : List Transaction),
          ReadTransactionByLocation wireCodec Ledger.healthy ws loc = Except.ok rs →
          ∀ r ∈ rs, r.Location = loc) := by
  have hreach : Reachable wireCodec (fun _ => True) craftedStore :=
    Reachable.step Ledger.healthy
      (Call.create craftedTx.TransactionID craftedTx.Amount craftedTx.Location
        craftedTx.Reciever craftedTx.Sender craftedTx.Status craftedTx.Timestamp
        craftedTx.TransactionPurchase craftedTx.TypeOfTransaction)
      WorldState.empty trivial Reachable.empty
  have hread : ReadTransactionByLocation wireCodec Ledger.healthy craftedStore "Queens" =
      Except.ok [craftedTx] := rfl
  refine ⟨hreach, hread, rfl, fun hall => ?_⟩
  have h := hall craftedStore "Queens" [craftedTx] hread craftedTx (List.mem_singleton.mpr rfl)
  exact absurd h (by decide)

/-- C12 (no partial results). For every serializer, ledger (faulting or not) and world
state in which at least one stored value, all of which the full range scan reaches, does not
deserialize to a transaction, `GetAllTransactions` returns an error and no record list at
all, however many values before it in scan order deserialize. -/
theorem getAll_no_partial_results (J : Codec) (L : Ledger) (ws : WorldState)
    (kv : String × Bytes) (e : error) (hmem : kv ∈ ws.entries)
    (hbad : J.Unmarshal kv.2 = Except.error e) :
    ∃ err, GetAllTransactions J L ws = Except.error err := by
  unfold GetAllTransactions GetStateByRange
  cases L.rangeErr "" "" with
  | some err => exact ⟨err, rfl⟩
  | none =>
    simp only [filter_inRange_all]
    exact collect_error_of_bad J L kv e hbad ws.entries hmem []

theorem getAll_no_partial_results_witness :
    ReadTransaction wireCodec Ledger.healthy corruptStore "7" = Except.ok sampleTx ∧
      (("8", [0]) : String × Bytes) ∈ corruptStore.entries ∧
      wireCodec.Unmarshal [0] = Except.error "unexpected end of input" ∧
      ∃ err, GetAllTransactions wireCodec Ledger.healthy corruptStore = Except.error err :=
  ⟨rfl, by decide, rfl,
    getAll_no_partial_results wireCodec Ledger.healthy corruptStore ("8", [0])
      "unexpected end of input" (by decide) rfl⟩

/-- C13 (existence probe). For every world state and id, `TransactionExists(id)` returns an
error if and only if the `GetState` of the collaborator faults; when it does not fault, the
result is true exactly when a value is stored under `id` and false when none is, never an
error for a missing key. The call returns no world state: it reads and does not write. -/
theorem transactionExists_outcome (L : Ledger) (ws : WorldState) (id : String) :
    ((∃ err, TransactionExists L ws id = Except.error err) ↔ ∃ e, L.getErr id = some e) ∧
      (L.getErr id = none →
        (ws.get id = none → TransactionExists L ws id = Except.ok false) ∧
        (∀ v, ws.get id = some v → TransactionExists L ws id = Except.ok true)) := by
  cases hg : L.getErr id with
  | some e =>
    rw [transactionExists_of_getErr_some L ws id e hg]
    simp
  | none =>
    rw [transactionExists_of_getErr_none L ws id hg]
    refine ⟨by simp, fun _ => ⟨fun h => by rw [h]; rfl, fun v h => by rw [h]; rfl⟩⟩

theorem transactionExists_outcome_witness :
    ((∃ err, TransactionExists Ledger.down sampleStore "7" = Except.error err) ∧
      ∃ e, Ledger.down.getErr "7" = some e) ∧
      Ledger.healthy.getErr "9" = none ∧ sampleStore.get "9" = none ∧
      TransactionExists Ledger.healthy sampleStore "9" = Except.ok false ∧
      (∃ v, sampleStore.get "7" = some v) ∧
      TransactionExists Ledger.healthy sampleStore "7" = Except.ok true :=
  ⟨⟨(transactionExists_outcome Ledger.down sampleStore "7").1.mpr ⟨_, rfl⟩, ⟨_, rfl⟩⟩, rfl, rfl,
    ((transactionExists_outcome Ledger.healthy sampleStore "9").2 rfl).1 rfl, ⟨_, rfl⟩,
    ((transactionExists_outcome Ledger.healthy sampleStore "7").2 rfl).2 _ rfl⟩

/-- C15 (frame). For every world state and id, a `CreateTransaction(id, ...)`,
`UpdateTransaction(id, ...)` or `DeleteTransaction(id)`, successful or not, changes the
value of the key `id` only: every key other than `id` maps to the same value, or to none,
after the call as before it. -/
theorem call_changes_only_its_key (J : Codec) (L : Ledger) (ws : WorldState)
    (transactionID : String) (amount : float64)
    (location reciever sender status timestamp : String)
    (transactionPurchase : TransactionPurchase) (typeOfTransaction : String)
    (key : String) (hkey : key ≠ transactionID) :
    (CreateTransaction J L ws transactionID amount location reciever sender status timestamp
        transactionPurchase typeOfTransaction).2.get key = ws.get key ∧
      (UpdateTransaction J L ws transactionID amount location reciever sender status timestamp
        transactionPurchase typeOfTransaction).2.get key = ws.get key ∧
      (DeleteTransaction L ws transactionID).2.get key = ws.get key := by
  have hput : ∀ b, (PutState L ws transactionID b).2.get key = ws.get key := by
    intro b
    unfold PutState
    cases L.putErr transactionID b with
    | some e => rfl
    | none => exact WorldState.get_put_ne ws transactionID key b hkey
  refine ⟨?_, ?_, ?_⟩
  · unfold CreateTransaction
    cases TransactionExists L ws transactionID with
    | error e => rfl
    | ok ex =>
      cases ex with
      | true => rfl
      | false =>
        simp only
        cases J.Marshal _ with
        | error e => rfl
        | ok b => exact hput b
  · unfold UpdateTransaction
    cases TransactionExists L ws transactionID with
    | error e => rfl
    | ok ex =>
      cases ex with
      | false => rfl
      | true =>
        simp only
        cases J.Marshal _ with
        | error e => rfl
        | ok b => exact hput b
  · unfold DeleteTransaction
    cases TransactionExists L ws transactionID with
    | error e => rfl
    | ok ex =>
      cases ex with
      | false => rfl
      | true =>
        simp only [DelState]
        cases L.delErr transactionID with
        | some e => rfl
        | none => exact WorldState.get_del_ne ws transactionID key hkey

theorem call_changes_only_its_key_witness :
    "8" ≠ "9" ∧ "8" ≠ "7" ∧
      ((createOf wireCodec Ledger.healthy corruptStore sampleTx9).1 = none ∧
        (createOf wireCodec Ledger.healthy corruptStore sampleTx9).2.get "8" =
          corruptStore.get "8") ∧
      ((updateOf wireCodec Ledger.healthy corruptStore sampleTxComplete).1 = none ∧
        (updateOf wireCodec Ledger.healthy corruptStore sampleTxComplete).2.get "8" =
          corruptStore.get "8") ∧
      ((DeleteTransaction Ledger.healthy corruptStore "7").1 = none ∧
        (DeleteTransaction Ledger.healthy corruptStore "7").2.get "8" = corruptStore.get "8") :=
  ⟨by decide, by decide,
    ⟨rfl, (call_changes_only_its_key wireCodec Ledger.healthy corruptStore "9" _ _ _ _ _ _ _ _
      "8" (by decide)).1⟩,
    ⟨rfl, (call_changes_only_its_key wireCodec Ledger.healthy corruptStore "7" _ _ _ _ _ _ _ _
      "8" (by decide)).2.1⟩,
    ⟨rfl, (call_changes_only_its_key wireCodec Ledger.healthy corruptStore "7" 0 "" "" "" "" ""
      sampleTx.TransactionPurchase "" "8" (by decide)).2.2⟩⟩

/-- C17 (create and update are complementary gates). For every world state, every id and
field values that the serializer marshals, on a ledger that does not fault:
`CreateTransaction` succeeds iff the id is absent, `UpdateTransaction` with the same
arguments succeeds iff the id is present, so exactly one of the two succeeds on that state;
and whichever succeeds leaves the same bytes, the marshalled record, stored under the id. -/
theorem create_update_complementary (J : Codec) (L : Ledger) (ws : WorldState)
    (t : Transaction) (b : Bytes) (hm : J.Marshal t = Except.ok b) (hL : L.NoFault) :
    ((createOf J L ws t).1 = none ↔ ws.get t.TransactionID = none) ∧
      ((updateOf J L ws t).1 = none ↔ ws.get t.TransactionID ≠ none) ∧
      ((createOf J L ws t).1 = none ↔ ¬ (updateOf J L ws t).1 = none) ∧
      ((createOf J L ws t).1 = none → (createOf J L ws t).2.get t.TransactionID = some b) ∧
      ((updateOf J L ws t).1 = none → (updateOf J L ws t).2.get t.TransactionID = some b) := by
  rw [createOf_eq, updateOf_eq, transactionExists_of_getErr_none L ws _ (hL.get _), hm]
  cases hs : ws.get t.TransactionID with
  | none => simp [PutState, hL.put, WorldState.get_put_self]
  | some v => simp [PutState, hL.put, WorldState.get_put_self]

theorem create_update_complementary_witness :
    (∃ b, wireCodec.Marshal sampleTxComplete = Except.ok b) ∧ Ledger.healthy.NoFault ∧
      ((createOf wireCodec Ledger.healthy WorldState.empty sampleTxComplete).1 = none ∧
        ¬ (updateOf wireCodec Ledger.healthy WorldState.empty sampleTxComplete).1 = none) ∧
      (¬ (createOf wireCodec Ledger.healthy sampleStore sampleTxComplete).1 = none ∧
        (updateOf wireCodec Ledger.healthy sampleStore sampleTxComplete).1 = none) ∧
      (createOf wireCodec Ledger.healthy WorldState.empty sampleTxComplete).2.get "7" =
        (updateOf wireCodec Ledger.healthy sampleStore sampleTxComplete).2.get "7" :=
  ⟨⟨_, rfl⟩, Ledger.healthy_noFault,
    ⟨rfl, (create_update_complementary wireCodec Ledger.healthy WorldState.empty
      sampleTxComplete _ rfl Ledger.healthy_noFault).2.2.1.mp rfl⟩,
    ⟨fun h => (create_update_complementary wireCodec Ledger.healthy sampleStore sampleTxComplete _
        rfl Ledger.healthy_noFault).2.2.1.mp h rfl, rfl⟩,
    ((create_update_complementary wireCodec Ledger.healthy WorldState.empty sampleTxComplete _
        rfl Ledger.healthy_noFault).2.2.2.1 rfl).trans
      ((create_update_complementary wireCodec Ledger.healthy sampleStore sampleTxComplete _
        rfl Ledger.healthy_noFault).2.2.2.2 rfl).symm⟩

/-- C18 (create then delete is the identity). For every world state in which `id` is absent,
every transaction `t` with that `TransactionID` that the serializer marshals, and a ledger
that does not fault, `CreateTransaction` with the fields of `t` followed by
`DeleteTransaction(id)` both succeed and the resulting world state equals the original
one. -/
theorem create_then_delete_identity (J : Codec) (L : Ledger) (ws : WorldState)
    (t : Transaction) (b : Bytes) (hm : J.Marshal t = Except.ok b)
    (habsent : ws.get t.TransactionID = none) (hL : L.NoFault) :
    (createOf J L ws t).1 = none ∧
      (DeleteTransaction L (createOf J L ws t).2 t.TransactionID).1 = none ∧
      (DeleteTransaction L (createOf J L ws t).2 t.TransactionID).2 = ws := by
  have hc : createOf J L ws t = (none, ws.put t.TransactionID b) := by
    rw [createOf_eq, transactionExists_of_getErr_none L ws _ (hL.get _), habsent]
    simp [hm, PutState, hL.put]
  have hd : DeleteTransaction L (ws.put t.TransactionID b) t.TransactionID =
      (none, (ws.put t.TransactionID b).del t.TransactionID) := by
    unfold DeleteTransaction
    rw [transactionExists_of_getErr_none L _ _ (hL.get _), WorldState.get_put_self]
    simp [DelState, hL.del]
  rw [hc, hd]
  exact ⟨rfl, rfl, WorldState.del_put_of_absent ws _ b habsent⟩

theorem create_then_delete_identity_witness :
    corruptStore.get sampleTx9.TransactionID = none ∧ Ledger.healthy.NoFault ∧
      (createOf wireCodec Ledger.healthy corruptStore sampleTx9).1 = none ∧
      (DeleteTransaction Ledger.healthy
        (createOf wireCodec Ledger.healthy corruptStore sampleTx9).2 "9").1 = none ∧
      (DeleteTransaction Ledger.healthy
        (createOf wireCodec Ledger.healthy corruptStore sampleTx9).2 "9").2 = corruptStore :=
  ⟨rfl, Ledger.healthy_noFault,
    create_then_delete_identity wireCodec Ledger.healthy corruptStore sampleTx9 _ rfl rfl
      Ledger.healthy_noFault⟩

/-- C11 (seeding is unconditional and idempotent). For every world state, on a ledger that
does not fault and with a serializer that marshals the four seed records, `InitLedger`
succeeds whether or not the ids "1".."4" already exist, leaves each of those four keys
holding the marshalled seed record, and a second `InitLedger` succeeds and yields a world
state identical to the one after the first run. -/
theorem initLedger_unconditional_idempotent (J : Codec) (L : Ledger) (ws : WorldState)
    (hL : L.NoFault) (hseeds : ∀ t ∈ seedTransactions, ∃ b, J.Marshal t = Except.ok b) :
    (InitLedger J L ws).1 = none ∧
      (∀ t ∈ seedTransactions, ∀ b, J.Marshal t = Except.ok b →
        (InitLedger J L ws).2.get t.TransactionID = some b) ∧
      InitLedger J L (InitLedger J L ws).2 = (none, (InitLedger J L ws).2) := by
  obtain ⟨b1, hm1⟩ := hseeds seed1 (by simp [seedTransactions])
  obtain ⟨b2, hm2⟩ := hseeds seed2 (by simp [seedTransactions])
  obtain ⟨b3, hm3⟩ := hseeds seed3 (by simp [seedTransactions])
  obtain ⟨b4, hm4⟩ := hseeds seed4 (by simp [seedTransactions])
  have hinit := initLedger_eq_puts J L hL b1 b2 b3 b4 hm1 hm2 hm3 hm4
  have hid1 : seed1.TransactionID = "1" := rfl
  have hid2 : seed2.TransactionID = "2" := rfl
  have hid3 : seed3.TransactionID = "3" := rfl
  have hid4 : seed4.TransactionID = "4" := rfl
  refine ⟨by rw [hinit], ?_, ?_⟩
  · intro t ht b hb
    simp only [seedTransactions, List.mem_cons, List.mem_singleton, List.not_mem_nil,
      or_false] at ht
    rw [hinit]
    rcases ht with rfl | rfl | rfl | rfl
    · rw [hm1] at hb; cases hb; simp [WorldState.get_put, hid1]
    · rw [hm2] at hb; cases hb; simp [WorldState.get_put, hid2]
    · rw [hm3] at hb; cases hb; simp [WorldState.get_put, hid3]
    · rw [hm4] at hb; cases hb; simp [WorldState.get_put, hid4]
  · rw [hinit ws, hinit]
    refine Prod.ext rfl (WorldState.ext_get fun k => ?_)
    simp only [WorldState.get_put]
    split_ifs <;> rfl

theorem initLedger_unconditional_idempotent_witness :
    Ledger.healthy.NoFault ∧
      (InitLedger wireCodec Ledger.healthy WorldState.empty).1 = none ∧
      (∃ v, corruptStore.get "7" = some v) ∧
      (InitLedger wireCodec Ledger.healthy corruptStore).1 = none ∧
      (∀ t ∈ seedTransactions, ∀ b, wireCodec.Marshal t = Except.ok b →
        (InitLedger wireCodec Ledger.healthy corruptStore).2.get t.TransactionID = some b) ∧
      InitLedger wireCodec Ledger.healthy (InitLedger wireCodec Ledger.healthy corruptStore).2 =
        (none, (InitLedger wireCodec Ledger.healthy corruptStore).2) :=
  have hseeds : ∀ t ∈ seedTransactions, ∃ b, wireCodec.Marshal t = Except.ok b :=
    fun t ht => (wireCodec_roundTrip_seeds t ht).imp fun _ h => h.1
  ⟨Ledger.healthy_noFault,
    (initLedger_unconditional_idempotent wireCodec Ledger.healthy WorldState.empty
      Ledger.healthy_noFault hseeds).1,
    ⟨_, rfl⟩,
    initLedger_unconditional_idempotent wireCodec Ledger.healthy corruptStore
      Ledger.healthy_noFault hseeds⟩

/-- C14 (read outcome). For every world state and id, on a ledger that does not fault and
with a serializer whose own errors differ from the "does not exist" message:
`ReadTransaction(id)` fails with the "does not exist" error iff no value is stored under
`id`; it fails with another error `e` iff a value is stored and deserializing it fails with
`e`; and it returns `t` iff a value is stored and deserializes to `t`. The call returns no
world state: it reads and does not write. -/
theorem readTransaction_outcome (J : Codec) (L : Ledger) (ws : WorldState) (id : String)
    (hL : L.NoFault)
    (hmsg : ∀ b e, J.Unmarshal b = Except.error e →
      e ≠ "the transaction " ++ id ++ " does not exist") :
    (ReadTransaction J L ws id =
        Except.error ("the transaction " ++ id ++ " does not exist") ↔ ws.get id = none) ∧
      (∀ e, (ReadTransaction J L ws id = Except.error e ∧
          e ≠ "the transaction " ++ id ++ " does not exist") ↔
        ∃ b, ws.get id = some b ∧ J.Unmarshal b = Except.error e) ∧
      (∀ t, ReadTransaction J L ws id = Except.ok t ↔
        ∃ b, ws.get id = some b ∧ J.Unmarshal b = Except.ok t) := by
  cases hs : ws.get id with
  | none =>
    rw [readTransaction_of_absent J L ws id (hL.get id) hs]
    simp
  | some b =>
    cases hu : J.Unmarshal b with
    | error e' =>
      have hr : ReadTransaction J L ws id = Except.error e' := by
        simp [ReadTransaction, GetState, hL.get, hs, hu]
      have hne := hmsg b e' hu
      rw [hr]
      refine ⟨by simp [hne], fun e => ?_, by simp [hu]⟩
      constructor
      · rintro ⟨he, _⟩
        cases he
        exact ⟨b, rfl, hu⟩
      · rintro ⟨b', hb', hu'⟩
        cases hb'
        rw [hu] at hu'
        cases hu'
        exact ⟨rfl, hne⟩
    | ok t' =>
      rw [readTransaction_of_stored J L ws id b t' (hL.get id) hs hu]
      simp [hu]

theorem readTransaction_outcome_witness :
    Ledger.healthy.NoFault ∧
      (corruptStore.get "9" = none ∧
        ReadTransaction wireCodec Ledger.healthy corruptStore "9" =
          Except.error ("the transaction " ++ "9" ++ " does not exist")) ∧
      (corruptStore.get "8" = some [0] ∧
        wireCodec.Unmarshal [0] = Except.error "unexpected end of input" ∧
        ReadTransaction wireCodec Ledger.healthy corruptStore "8" =
          Except.error "unexpected end of input") ∧
      ((∃ b, corruptStore.get "7" = some b ∧ wireCodec.Unmarshal b = Except.ok sampleTx) ∧
        ReadTransaction wireCodec Ledger.healthy corruptStore "7" = Except.ok sampleTx) :=
  have hmsg : ∀ (id : String), id.data.length = 1 → ∀ b e,
      wireCodec.Unmarshal b = Except.error e →
      e ≠ "the transaction " ++ id ++ " does not exist" := by
    intro id hid b e h
    rw [wire.unmarshal_error b e h]
    intro heq
    have := congrArg (fun s => s.data.length) heq
    simp [String.data_append, hid] at this
  ⟨Ledger.healthy_noFault,
    ⟨rfl, (readTransaction_outcome wireCodec Ledger.healthy corruptStore "9"
      Ledger.healthy_noFault (hmsg "9" rfl)).1.mpr rfl⟩,
    ⟨rfl, rfl, ((readTransaction_outcome wireCodec Ledger.healthy corruptStore "8"
      Ledger.healthy_noFault (hmsg "8" rfl)).2.1 _).mpr ⟨[0], rfl, rfl⟩ |>.1⟩,
    ⟨⟨_, rfl, rfl⟩, ((readTransaction_outcome wireCodec Ledger.healthy corruptStore "7"
      Ledger.healthy_noFault (hmsg "7" rfl)).2.2 _).mpr ⟨_, rfl, rfl⟩⟩⟩

/-- C16, the claim as stated fails: `CreateTransaction` puts under the `TransactionID` as
given (source line 112), while the stored bytes are what the serializer writes for the
record, and `json.Marshal` writes U+FFFD for a byte that is not well-formed UTF-8. Called on
the empty world state with the one-byte id 0xFF, it succeeds and leaves under that key a
value that deserializes to a record whose `TransactionID` is U+FFFD, not the key. -/
theorem key_id_agreement_fails_for_ill_formed_id :
    Reachable coercingCodec (fun _ => True) illFormedStore ∧
      illFormedStore.get illFormedTx.TransactionID = some illFormedBytes ∧
      coercingCodec.Unmarshal illFormedBytes =
        Except.ok { illFormedTx with TransactionID := String.mk [Char.ofNat 0xFFFD] } ∧
      String.mk [Char.ofNat 0xFFFD] ≠ illFormedTx.TransactionID ∧
      ¬ (∀ ws, Reachable coercingCodec (fun _ => True) ws →
          ∀ kv ∈ ws.entries,
            ∃ t, coercingCodec.Unmarshal kv.2 = Except.ok t ∧ t.TransactionID = kv.1) := by
  have hreach : Reachable coercingCodec (fun _ => True) illFormedStore :=
    Reachable.step Ledger.healthy
      (Call.create illFormedTx.TransactionID illFormedTx.Amount illFormedTx.Location
        illFormedTx.Reciever illFormedTx.Sender illFormedTx.Status illFormedTx.Timestamp
        illFormedTx.TransactionPurchase illFormedTx.TypeOfTransaction)
      WorldState.empty trivial Reachable.empty
  have hread : coercingCodec.Unmarshal illFormedBytes =
      Except.ok { illFormedTx with TransactionID := String.mk [Char.ofNat 0xFFFD] } := rfl
  have hne : String.mk [Char.ofNat 0xFFFD] ≠ illFormedTx.TransactionID := by decide
  refine ⟨hreach, rfl, hread, hne, fun hall => ?_⟩
  have hmem : (illFormedTx.TransactionID, illFormedBytes) ∈ illFormedStore.entries := by
    decide
  obtain ⟨t, ht, hid⟩ := hall illFormedStore hreach _ hmem
  rw [hread] at ht
  cases ht
  exact hne hid

/-- C16 as amended. With a serializer that reads back every record it marshals (as
`encoding/json` does when the string arguments are well-formed UTF-8), in every world state
reached from the empty one by any sequence of `InitLedger`, `CreateTransaction`,
`UpdateTransaction` and `DeleteTransaction` calls (each on a ledger of its own, faulting or
not), every stored value deserializes to a transaction whose `TransactionID` equals the key
it is stored under; so no call leaves a record under a key other than its own id, and every
record that `GetAllTransactions` returns is the deserialization of the value stored under
its own `TransactionID`. -/
theorem key_id_agreement (J : Codec) (hJ : J.Faithful) (ws : WorldState)
    (hreach : Reachable J (fun _ => True) ws) :
    (∀ kv ∈ ws.entries, ∃ t, J.Unmarshal kv.2 = Except.ok t ∧ t.TransactionID = kv.1) ∧
      ∀ (L : Ledger) (rs : List Transaction), GetAllTransactions J L ws = Except.ok rs →
        ∀ r ∈ rs, ∃ v, ws.get r.TransactionID = some v ∧ J.Unmarshal v = Except.ok r := by
  have hst := stamped_of_reachable J _ ws hreach
  have hinv : ∀ kv ∈ ws.entries, ∃ t, J.Unmarshal kv.2 = Except.ok t ∧ t.TransactionID = kv.1 := by
    intro kv hkv
    obtain ⟨t, hm, hid⟩ := hst kv hkv
    exact ⟨t, hJ t kv.2 hm, hid⟩
  refine ⟨hinv, fun L rs hall r hr => ?_⟩
  unfold GetAllTransactions GetStateByRange at hall
  cases hrange : L.rangeErr "" "" with
  | some e => rw [hrange] at hall; cases hall
  | none =>
    rw [hrange] at hall
    simp only [filter_inRange_all] at hall
    rcases collect_sound J L _ [] rs hall r hr with hnil | ⟨kv, hmem, hu⟩
    · cases hnil
    · obtain ⟨t, hut, hid⟩ := hinv kv hmem
      rw [hu] at hut
      cases hut
      refine ⟨kv.2, ?_, hu⟩
      rw [hid]
      exact lookupKey_of_mem ws.entries ws.sorted kv.1 kv.2 hmem

theorem key_id_agreement_witness :
    wireCodec.Faithful ∧ Reachable wireCodec (fun _ => True) sampleStore ∧
      (∀ kv ∈ sampleStore.entries,
        ∃ t, wireCodec.Unmarshal kv.2 = Except.ok t ∧ t.TransactionID = kv.1) ∧
      ∀ (L : Ledger) (rs : List Transaction),
        GetAllTransactions wireCodec L sampleStore = Except.ok rs →
        ∀ r ∈ rs, ∃ v, sampleStore.get r.TransactionID = some v ∧
          wireCodec.Unmarshal v = Except.ok r :=
  have hreach : Reachable wireCodec (fun _ => True) sampleStore :=
    Reachable.step Ledger.healthy
      (Call.create sampleTx.TransactionID sampleTx.Amount sampleTx.Location sampleTx.Reciever
        sampleTx.Sender sampleTx.Status sampleTx.Timestamp sampleTx.TransactionPurchase
        sampleTx.TypeOfTransaction)
      WorldState.empty trivial Reachable.empty
  ⟨wireCodec_faithful, hreach, key_id_agreement wireCodec wireCodec_faithful sampleStore hreach⟩

/-- C19 (`getBoolOrDefault` and the TLS switch). `getBoolOrDefault(value, defaultVal)`
returns `defaultVal` for every string that `strconv.ParseBool` rejects, and the parsed
boolean, whatever `defaultVal` is, for every string it accepts. Consequently, given that
`strconv.ParseBool("true")` is true: when `CHAINCODE_TLS_DISABLED` is not set, every
`TLSProperties` that `getTLSProperties` returns has `Disabled` true, and it returns one
without reading key or certificate when no client CA certificate is configured; when the
variable is set to a string that `strconv.ParseBool` rejects, every `TLSProperties` returned
has `Disabled` false, and one is returned, holding the key and certificate, when both files
are readable and no client CA certificate is configured. -/
theorem getBoolOrDefault_and_tls_switch (ParseBool : String → Except error Bool) (H : Host) :
    (∀ (value : String) (defaultVal : Bool),
        (∀ e, ParseBool value = Except.error e →
          getBoolOrDefault ParseBool value defaultVal = defaultVal) ∧
        (∀ b, ParseBool value = Except.ok b →
          getBoolOrDefault ParseBool value defaultVal = b)) ∧
      (ParseBool "true" = Except.ok true → H.LookupEnv "CHAINCODE_TLS_DISABLED" = none →
        (∀ p, getTLSProperties ParseBool H = Except.ok p → p.Disabled = true) ∧
        (H.LookupEnv "CHAINCODE_CLIENT_CA_CERT" = none →
          getTLSProperties ParseBool H =
            Except.ok { Disabled := true, Key := none, Cert := none, ClientCACerts := none })) ∧
      (∀ s e, H.LookupEnv "CHAINCODE_TLS_DISABLED" = some s → ParseBool s = Except.error e →
        (∀ p, getTLSProperties ParseBool H = Except.ok p → p.Disabled = false) ∧
        (∀ keyBytes certBytes,
          H.ReadFile (getEnvOrDefault H "CHAINCODE_TLS_KEY" "") = Except.ok keyBytes →
          H.ReadFile (getEnvOrDefault H "CHAINCODE_TLS_CERT" "") = Except.ok certBytes →
          H.LookupEnv "CHAINCODE_CLIENT_CA_CERT" = none →
          getTLSProperties ParseBool H =
            Except.ok { Disabled := false, Key := some keyBytes, Cert := some certBytes,
                        ClientCACerts := none })) := by
  refine ⟨fun value defaultVal => ⟨fun e h => by simp [getBoolOrDefault, h],
    fun b h => by simp [getBoolOrDefault, h]⟩, ?_, ?_⟩
  · intro htrue hunset
    have hd : getBoolOrDefault ParseBool (getEnvOrDefault H "CHAINCODE_TLS_DISABLED" "true")
        false = true := by
      simp [getEnvOrDefault, hunset, getBoolOrDefault, htrue]
    refine ⟨fun p hp => ?_, fun hca => ?_⟩
    · unfold getTLSProperties at hp
      simp only [hd] at hp
      split at hp
      · cases hp
      · rename_i kb cb hl
        split_ifs at hp with hca
        · split at hp
          · cases hp
          · cases hp; rfl
        · cases hp; rfl
    · unfold getTLSProperties
      simp only [hd]
      simp [getEnvOrDefault, hca]
  · intro s e hset hbad
    have hd : getBoolOrDefault ParseBool (getEnvOrDefault H "CHAINCODE_TLS_DISABLED" "true")
        false = false := by
      simp [getEnvOrDefault, hset, getBoolOrDefault, hbad]
    refine ⟨fun p hp => ?_, fun keyBytes certBytes hk hc hca => ?_⟩
    · unfold getTLSProperties at hp
      simp only [hd] at hp
      split at hp
      · cases hp
      · rename_i kb cb hl
        split_ifs at hp with hca
        · split at hp
          · cases hp
          · cases hp; rfl
        · cases hp; rfl
    · unfold getTLSProperties
      simp only [hd, hk, hc]
      simp [getEnvOrDefault, hca]

theorem getBoolOrDefault_and_tls_switch_witness :
    ((∃ e, strconvParseBool "yes" = Except.error e) ∧
        getBoolOrDefault strconvParseBool "yes" true = true ∧
        getBoolOrDefault strconvParseBool "yes" false = false) ∧
      (strconvParseBool "F" = Except.ok false ∧
        getBoolOrDefault strconvParseBool "F" true = false) ∧
      (strconvParseBool "true" = Except.ok true ∧
        Host.bare.LookupEnv "CHAINCODE_TLS_DISABLED" = none ∧
        getTLSProperties strconvParseBool Host.bare =
          Except.ok { Disabled := true, Key := none, Cert := none, ClientCACerts := none }) ∧
      (Host.misconfigured.LookupEnv "CHAINCODE_TLS_DISABLED" = some "yes" ∧
        getTLSProperties strconvParseBool Host.misconfigured =
          Except.ok { Disabled := false, Key := some [1], Cert := some [2],
                      ClientCACerts := none }) :=
  ⟨⟨⟨_, rfl⟩,
      ((getBoolOrDefault_and_tls_switch strconvParseBool Host.bare).1 "yes" true).1 _ rfl,
      ((getBoolOrDefault_and_tls_switch strconvParseBool Host.bare).1 "yes" false).1 _ rfl⟩,
    ⟨rfl, ((getBoolOrDefault_and_tls_switch strconvParseBool Host.bare).1 "F" true).2 _ rfl⟩,
    ⟨rfl, rfl,
      ((getBoolOrDefault_and_tls_switch strconvParseBool Host.bare).2.1 rfl rfl).2 rfl⟩,
    ⟨rfl,
      ((getBoolOrDefault_and_tls_switch strconvParseBool Host.misconfigured).2.2 "yes" _ rfl
        rfl).2 [1] [2] rfl rfl rfl⟩⟩

end AssetTransfer
